import Mathlib

/-!
A shallow embedding of the chunk-storage coordinator in `src/server.py`
(with the catalog schema of `src/db_setup.py`), together with proofs about
its upload / download / rollback / placement / maintenance operations.

Modelling conventions, stated once here:

* Byte strings are `List Nat`.
* The compression library (`zlib`), the authenticated encryption
  (`cryptography.fernet.Fernet`) and the content hash (`hashlib.sha256`)
  are external libraries, not code of this repository.  They are modelled
  as the fields of a `Crypto` parameter; the properties the server relies
  on (decrypt-then-decompress inverts compress-then-encrypt, and hashes of
  distinct byte strings differ, the idealisation of SHA-256 collision
  resistance) form `LawfulCrypto`.  All pipeline code is translated from
  the source against this interface.
* A chunk file name `<safe_filename>_chunk_<index>` is modelled as the
  pair `(filename, index)`; this keeps exactly the collision behaviour of
  the source (two uploads of the same filename collide on the same chunk
  names, different filenames or indexes do not).
* A disk path is a pair `(node, basename)`; the source's
  `chunk_location LIKE '%NodeK%'` test matches exactly the rows whose
  path lies in `./storage_nodeK` (SQLite LIKE is ASCII-case-insensitive,
  so `%Node1%` matches `storage_node1`; the three directory names are
  mutually non-substring), which is the `location.fst = nodeK` test here.
* `get_node_usage` compares nodes by `usage_percentage = used/CAP*100`
  with the same constant `CAP` for every node, which orders nodes exactly
  as `used` does; the model compares `used` directly.
* ISO-8601 timestamp strings are modelled as integers where a claim needs
  them (`last_accessed`, `upload_timestamp`) and omitted where none does
  (`created_at`, `first_seen`, ...).  `compression_ratio` (a float only
  reported back to the client) is omitted.
* SQLite rows are records; `INSERT` appends to the table list, so list
  order is rowid order, which is what `GROUP_CONCAT(id)` concatenates.
-/

/-! ## Bytes, nodes, disk -/

instance instDecidableEqExcept {ε α : Type} [DecidableEq ε] [DecidableEq α] :
    DecidableEq (Except ε α) := fun a b =>
  match a, b with
  | Except.ok x, Except.ok y =>
    if h : x = y then isTrue (by rw [h]) else isFalse (by intro hc; cases hc; exact h rfl)
  | Except.error x, Except.error y =>
    if h : x = y then isTrue (by rw [h]) else isFalse (by intro hc; cases hc; exact h rfl)
  | Except.ok _, Except.error _ => isFalse (by intro hc; cases hc)
  | Except.error _, Except.ok _ => isFalse (by intro hc; cases hc)

abbrev Bytes := List Nat

/-- The three storage nodes of `UPLOAD_FOLDERS` (server.py:48-52). -/
inductive Node where
  | node1
  | node2
  | node3
deriving DecidableEq, Repr

/-- The fixed node ordering of the `UPLOAD_FOLDERS` dict
(insertion order, which Python's `min` and `for` iterate in). -/
def UPLOAD_FOLDERS : List Node := [Node.node1, Node.node2, Node.node3]

/-- Display name of a node, the key used in heartbeats and LIKE patterns. -/
def Node.name : Node → String
  | Node.node1 => "Node1"
  | Node.node2 => "Node2"
  | Node.node3 => "Node3"

/-- A chunk file basename `<safe_filename>_chunk_<index>`, modelled as the
(filename, index) pair that the string concatenation encodes. -/
abbrev Basename := String × Nat

/-- A path `<dir(node)>/<basename>`. -/
abbrev Loc := Node × Basename

/-- The file systems of the three node directories: an association list
from path to content.  Writing replaces any previous entry. -/
structure Disk where
  files : List (Loc × Bytes)
deriving DecidableEq, Repr

def Disk.read (d : Disk) (l : Loc) : Option Bytes :=
  (d.files.find? (fun e => decide (e.1 = l))).map (fun e => e.2)

def Disk.write (d : Disk) (l : Loc) (b : Bytes) : Disk :=
  ⟨(l, b) :: d.files.filter (fun e => decide (¬ e.1 = l))⟩

def emptyDisk : Disk := ⟨[]⟩

/-! ## Placement engine (server.py:1326-1377) -/

/-- `CHUNK_SIZE = 4 * 1024 * 1024` (server.py:32). -/
def CHUNK_SIZE : Nat := 4 * 1024 * 1024

/-- `total_capacity = 500 * 1024 * 1024` per node (server.py:1326). -/
def NODE_CAPACITY : Nat := 500 * 1024 * 1024

/-- `used_space`: total size of the regular files in a node's directory
(server.py:1331-1335). -/
def usedSpace (d : Disk) (n : Node) : Nat :=
  ((d.files.filter (fun e => decide (e.1.1 = n))).map (fun e => e.2.length)).sum

/-- `available_space = total_capacity - used_space` (server.py:1336),
computed in `Int` as Python's unbounded integers do. -/
def availableSpace (d : Disk) (n : Node) : Int :=
  (NODE_CAPACITY : Int) - (usedSpace d n : Int)

/-- The `available_nodes` dict of `select_storage_node` (server.py:1356-1359):
nodes not excluded whose available space is at least the chunk size, in the
fixed node ordering. -/
def selectCandidates (chunkSize : Nat) (excluded : List Node) (d : Disk) : List Node :=
  UPLOAD_FOLDERS.filter (fun n =>
    decide (¬ n ∈ excluded ∧ (chunkSize : Int) ≤ availableSpace d n))

/-- Python's `min(..., key=usage_percentage)`: the first element attaining
the minimal used space (usage percentage orders as used space does). -/
def pickMinUsed (d : Disk) : List Node → Option Node
  | [] => none
  | n :: rest =>
    some (rest.foldl (fun best m => if usedSpace d m < usedSpace d best then m else best) n)

/-- `select_storage_node` (server.py:1350-1368). -/
def selectStorageNode (chunkSize : Nat) (excluded : List Node) (d : Disk) :
    Except String Node :=
  match pickMinUsed d (selectCandidates chunkSize excluded d) with
  | none => Except.error "No suitable nodes available for storage"
  | some n => Except.ok n

/-! ## Crypto interface (external libraries; see header) -/

/-- The external compress / encrypt / hash primitives used by the server
(zlib, Fernet, hashlib.sha256). -/
structure Crypto where
  compress : Bytes → Bytes
  decompress : Bytes → Bytes
  encrypt : Bytes → Bytes
  decrypt : Bytes → Bytes
  hash : Bytes → Bytes

/-- `encrypt_and_compress_data` (server.py:1244-1253): compress, then
encrypt.  Note the source signature takes only `data`; there is no
compression-level parameter (`zlib.compress` is called at its default
level, server.py:1186-1188). -/
def Crypto.encodeChunk (c : Crypto) (data : Bytes) : Bytes :=
  c.encrypt (c.compress data)

/-- `decrypt_and_decompress_data` (server.py:1255-1264): decrypt, then
decompress. -/
def Crypto.decodeChunk (c : Crypto) (data : Bytes) : Bytes :=
  c.decompress (c.decrypt data)

/-- The contracts of the external libraries that the server relies on:
Fernet decryption inverts encryption, zlib decompression inverts
compression, and SHA-256 is collision-free (idealised). -/
structure LawfulCrypto (c : Crypto) : Prop where
  decode_encode : ∀ b, c.decodeChunk (c.encodeChunk b) = b
  hash_inj : ∀ a b, c.hash a = c.hash b → a = b

/-- The identity instantiation, used to evaluate the model on concrete
inputs. -/
def idCrypto : Crypto :=
  ⟨fun b => b, fun b => b, fun b => b, fun b => b, fun b => b⟩

theorem idCrypto_lawful : LawfulCrypto idCrypto :=
  ⟨fun _ => rfl, fun _ _ h => h⟩

/-! ## Catalog rows (db_setup.py:53-204) -/

inductive ChunkStatus where
  | pending
  | active
  | deprecated
  | archived
deriving DecidableEq, Repr

/-- A `metadata` row (db_setup.py:53-75).  Fields no claim depends on
(`retention_policy`, `archive_date`) are omitted. -/
structure FileRow where
  id : Nat
  filename : String
  current_version : Nat
  size : Nat
  compressed_size : Nat
  upload_timestamp : Int
  location : Node
  replicas : List Node
  storage_tier : String
  last_accessed : Option Int
  access_count : Nat
  is_archived : Bool
  content_hash : Option Bytes
  deduplication_ref : Option Nat
deriving DecidableEq, Repr

/-- A `versions` row (db_setup.py:78-92). -/
structure VersionRow where
  file_id : Nat
  version_number : Nat
  size : Nat
  compressed_size : Nat
  hash : Bytes
deriving DecidableEq, Repr

/-- A `chunks` row (db_setup.py:95-110). -/
structure ChunkRow where
  id : Nat
  file_id : Nat
  version_number : Nat
  chunk_index : Nat
  chunk_location : Loc
  original_size : Nat
  compressed_size : Nat
  chunk_hash : Bytes
  status : ChunkStatus
deriving DecidableEq, Repr

/-- A `deduplication` row (db_setup.py:180-189). -/
structure DedupRow where
  content_hash : Bytes
  reference_count : Nat
  total_space_saved : Nat
deriving DecidableEq, Repr

/-- A `version_changes` row (db_setup.py:136-150):
(file_id, old_version, new_version, change_type). -/
structure VersionChangeRow where
  file_id : Nat
  old_version : Nat
  new_version : Nat
  change_type : String
deriving DecidableEq, Repr

structure Catalog where
  metadata : List FileRow
  versions : List VersionRow
  chunks : List ChunkRow
  deduplication : List DedupRow
  version_changes : List VersionChangeRow
deriving DecidableEq, Repr

/-- The whole system state: the catalog, the node file systems, and the
AUTOINCREMENT counters of the `metadata` and `chunks` tables. -/
structure Sys where
  catalog : Catalog
  disk : Disk
  nextFileId : Nat
  nextChunkId : Nat
deriving DecidableEq, Repr

def initSys : Sys :=
  ⟨⟨[], [], [], [], []⟩, emptyDisk, 1, 1⟩

/-- `SELECT ... FROM metadata WHERE filename = ?` taking the first row. -/
def findFileRow (cat : Catalog) (filename : String) : Option FileRow :=
  cat.metadata.find? (fun r => decide (r.filename = filename))

def currentVersionOf (s : Sys) (filename : String) : Option Nat :=
  (findFileRow s.catalog filename).map (fun r => r.current_version)

def fileIdOf (s : Sys) (filename : String) : Option Nat :=
  (findFileRow s.catalog filename).map (fun r => r.id)

def storageTierOf (s : Sys) (filename : String) : Option String :=
  (findFileRow s.catalog filename).map (fun r => r.storage_tier)

/-- `SELECT * FROM versions WHERE file_id = ?`. -/
def versionRowsOf (s : Sys) (fid : Nat) : List VersionRow :=
  s.catalog.versions.filter (fun v => decide (v.file_id = fid))

/-- Does `versions` contain a row (file_id, version_number)?  (The check of
`rollback_version`, server.py:1763-1773.) -/
def versionExists (cat : Catalog) (fid version : Nat) : Bool :=
  cat.versions.any (fun v => decide (v.file_id = fid ∧ v.version_number = version))

/-! ## Chunking -/

/-- Fuel-measured worker for `chunksOf` (fuel is always at least the length
of the remaining bytes, so the exhaustion branch is never reached). -/
def chunksOfFuel (n : Nat) : Nat → Bytes → List Bytes
  | _, [] => []
  | 0, _ :: _ => []
  | fuel + 1, x :: xs => ((x :: xs).take n) :: chunksOfFuel n fuel ((x :: xs).drop n)

/-- The `f.read(CHUNK_SIZE)` loop: split a byte string into consecutive
pieces of length `n` (the last may be shorter). -/
def chunksOf (n : Nat) (b : Bytes) : List Bytes :=
  chunksOfFuel n b.length b

/-! ## Replication (server.py:1137-1184) -/

/-- One iteration of the `for _ in range(2)` loop of `replicate_chunk`:
select a target, skip if the target already has the basename (in which case
neither the exclusion set nor the replica list grows — the `continue` at
server.py:1170 skips both updates), otherwise copy the current bytes. -/
def replicaStep (payload : Bytes) (basename : Basename)
    (st : List Node × List Loc × Disk) : List Node × List Loc × Disk :=
  let (excluded, locs, d) := st
  match selectStorageNode payload.length excluded d with
  | Except.error _ => (excluded, locs, d)
  | Except.ok n =>
    let rloc : Loc := (n, basename)
    if (d.read rloc).isSome then (excluded, locs, d)
    else (n :: excluded, locs ++ [rloc], d.write rloc payload)

/-- `replicate_chunk` (server.py:1137-1184).  `os.path.getsize` on a
missing source raises before the try blocks, hence the error case; inside
the loop all failures are caught and skipped.  The origin node is the one
whose folder prefixes the path, which is the node component here. -/
def replicateChunk (d : Disk) (loc : Loc) : Except String (List Loc × Disk) :=
  match d.read loc with
  | none => Except.error "getsize failed"
  | some payload =>
    let st1 := replicaStep payload loc.2 ([loc.1], [], d)
    let st2 := replicaStep payload loc.2 st1
    Except.ok (st2.2.1, st2.2.2)

/-! ## Upload (server.py:1442-1652) -/

/-- The chunk-writing loop of `upload_file` (server.py:1476-1501): encode
each piece, select a node for it, write
`<dir(target)>/<filename>_chunk_<index>` (overwriting any previous file of
that name), and record `(index, path)`.  A selection failure aborts the
upload. -/
def writeChunks (c : Crypto) (filename : String) :
    Disk → Nat → List Bytes → Except String (Disk × List (Nat × Loc))
  | d, _, [] => Except.ok (d, [])
  | d, i, piece :: rest =>
    let payload := c.encodeChunk piece
    match selectStorageNode payload.length [] d with
    | Except.error e => Except.error e
    | Except.ok target =>
      let loc : Loc := (target, (filename, i))
      let d1 := d.write loc payload
      match writeChunks c filename d1 (i + 1) rest with
      | Except.error e => Except.error e
      | Except.ok (d2, recorded) => Except.ok (d2, (i, loc) :: recorded)

/-- The chunk-row loop of the database phase of `upload_file`
(server.py:1566-1599): re-read each written chunk file, hash it, insert the
primary `chunks` row with status `active`, create the replicas, and insert
one row per replica copy with the same hash.  Also accumulates the node
directories used (`all_locations`). -/
def storeChunkRows (c : Crypto) (fid version : Nat) :
    Disk → Nat → List (Nat × Loc) →
    Except String (Disk × List ChunkRow × Nat × List Node)
  | d, cid, [] => Except.ok (d, [], cid, [])
  | d, cid, (i, loc) :: rest =>
    match d.read loc with
    | none => Except.error "chunk file missing"
    | some chunkData =>
      let h := c.hash chunkData
      let primary : ChunkRow :=
        ⟨cid, fid, version, i, loc, CHUNK_SIZE, chunkData.length, h, ChunkStatus.active⟩
      match replicateChunk d loc with
      | Except.error e => Except.error e
      | Except.ok (rlocs, d1) =>
        let replicaRows := (rlocs.enumFrom (cid + 1)).map (fun p =>
          (⟨p.1, fid, version, i, p.2, CHUNK_SIZE, chunkData.length, h,
            ChunkStatus.active⟩ : ChunkRow))
        let cid1 := cid + 1 + rlocs.length
        match storeChunkRows c fid version d1 cid1 rest with
        | Except.error e => Except.error e
        | Except.ok (d2, rows, cid2, nodes) =>
          Except.ok (d2, primary :: replicaRows ++ rows, cid2,
            loc.1 :: rlocs.map (fun l => l.1) ++ nodes)

/-- `upload_file` (server.py:1442-1652).  `now` stands for
`datetime.now()`. -/
def upload (c : Crypto) (now : Int) (s : Sys) (filename : String) (data : Bytes) :
    Except String Sys :=
  match selectStorageNode data.length [] s.disk with
  | Except.error e => Except.error e
  | Except.ok initialNode =>
    match writeChunks c filename s.disk 0 (chunksOf CHUNK_SIZE data) with
    | Except.error e => Except.error e
    | Except.ok (d1, recorded) =>
      let fileHash := c.hash data
      let totalCompressed :=
        ((chunksOf CHUNK_SIZE data).map (fun p => (c.encodeChunk p).length)).sum
      let existing := findFileRow s.catalog filename
      let fid := match existing with
        | some r => r.id
        | none => s.nextFileId
      let oldVersion := match existing with
        | some r => r.current_version
        | none => 0
      let newVersion := oldVersion + 1
      let metadata1 : List FileRow := match existing with
        | some _ =>
          s.catalog.metadata.map (fun r =>
            if r.id = fid then
              { r with current_version := newVersion, size := data.length,
                       compressed_size := totalCompressed,
                       upload_timestamp := now, location := initialNode }
            else r)
        | none =>
          s.catalog.metadata ++
            [⟨fid, filename, newVersion, data.length, totalCompressed, now,
              initialNode, [], "hot", none, 0, false, none, none⟩]
      let versions1 := s.catalog.versions ++
        [⟨fid, newVersion, data.length, totalCompressed, fileHash⟩]
      match storeChunkRows c fid newVersion d1 s.nextChunkId recorded with
      | Except.error e => Except.error e
      | Except.ok (d2, newRows, cid2, nodesUsed) =>
        let storageNodes := UPLOAD_FOLDERS.filter (fun n => n ∈ nodesUsed)
        let metadata2 := metadata1.map (fun r =>
          if r.id = fid then { r with replicas := storageNodes } else r)
        let changeType := match existing with
          | some _ => "update"
          | none => "create"
        Except.ok
          { catalog :=
              { metadata := metadata2
                versions := versions1
                chunks := s.catalog.chunks ++ newRows
                deduplication := s.catalog.deduplication
                version_changes := s.catalog.version_changes ++
                  [⟨fid, oldVersion, newVersion, changeType⟩] }
            disk := d2
            nextFileId := match existing with
              | some _ => s.nextFileId
              | none => s.nextFileId + 1
            nextChunkId := cid2 }

/-- Sequential uploads of the same filename (the scenario of P5). -/
def uploadSeq (c : Crypto) (now : Int) (s : Sys) (filename : String) :
    List Bytes → Except String Sys
  | [] => Except.ok s
  | b :: bs =>
    match upload c now s filename b with
    | Except.error e => Except.error e
    | Except.ok s1 => uploadSeq c now s1 filename bs

/-- Extract the state of a successful operation (the harness for stating
theorems about chains of operations without naming intermediate states). -/
def okState (r : Except String Sys) (fallback : Sys) : Sys :=
  match r with
  | Except.ok s => s
  | Except.error _ => fallback

/-! ## Download (server.py:1912-2027) -/

/-- Errors of the download handler, by HTTP effect: `notFound` is a 404
JSON body, `internal` a 500. -/
inductive DlErr where
  | notFound (msg : String)
  | internal (msg : String)
deriving DecidableEq, Repr

/-- Fetch one chunk (server.py:1971-1993): try the recorded location and
verify its hash; on miss or mismatch scan every node folder for a file of
the same basename whose hash verifies; fail if none does. -/
def fetchChunk (c : Crypto) (d : Disk) (r : ChunkRow) : Except DlErr Bytes :=
  let primary : Option Bytes :=
    match d.read r.chunk_location with
    | some bs => if c.hash bs = r.chunk_hash then some bs else none
    | none => none
  match primary with
  | some bs => Except.ok bs
  | none =>
    match UPLOAD_FOLDERS.findSome? (fun n =>
        match d.read (n, r.chunk_location.2) with
        | some bs => if c.hash bs = r.chunk_hash then some bs else none
        | none => none) with
    | some bs => Except.ok bs
    | none => Except.error (DlErr.internal "Chunk is corrupted or missing")

/-- The distinct chunk indexes of the selected rows in ascending order
(`SELECT DISTINCT ... GROUP BY chunk_index ORDER BY chunk_index`). -/
def distinctSortedIndices (rows : List ChunkRow) : List Nat :=
  (List.range ((rows.map (fun r => r.chunk_index)).foldr max 0 + 1)).filter
    (fun i => i ∈ rows.map (fun r => r.chunk_index))

/-- The per-index reassembly loop (server.py:1965-1997): for each distinct
index take the grouped row (`pick` stands for SQLite's choice of a
representative row for a bare column under GROUP BY, which is an arbitrary
row of the group), fetch a verified copy, decode it, and concatenate. -/
def gatherChunks (c : Crypto) (pick : List ChunkRow → Option ChunkRow)
    (d : Disk) (rows : List ChunkRow) : List Nat → Except DlErr Bytes
  | [] => Except.ok []
  | i :: rest =>
    let group := rows.filter (fun r => decide (r.chunk_index = i))
    match pick group with
    | none => Except.error (DlErr.internal "empty group")
    | some r =>
      match fetchChunk c d r with
      | Except.error e => Except.error e
      | Except.ok bs =>
        match gatherChunks c pick d rows rest with
        | Except.error e => Except.error e
        | Except.ok tail => Except.ok (c.decodeChunk bs ++ tail)

/-- A `pick` function is sound when it returns a member of any nonempty
group. -/
def GoodPick (pick : List ChunkRow → Option ChunkRow) : Prop :=
  ∀ g : List ChunkRow, g ≠ [] → ∃ r, pick g = some r ∧ r ∈ g

/-- The head-of-group choice, used to evaluate the model concretely. -/
def pickHead (g : List ChunkRow) : Option ChunkRow := g.head?

/-- `download_file` (server.py:1912-2027).  Returns the response and the
catalog as left by the handler (which runs only SELECT statements).

With an explicit `?version=` the handler's query returns a row with
columns `(id, version_number)` (server.py:1926-1932) and then reads
`result['current_version']` (server.py:1944); `sqlite3.Row` raises
IndexError for the missing key, the outer handler catches it and returns
a 500 — it never reaches the chunk query. -/
def download (c : Crypto) (pick : List ChunkRow → Option ChunkRow) (s : Sys)
    (filename : String) (version : Option Nat) : Except DlErr Bytes × Catalog :=
  match version with
  | some v =>
    match findFileRow s.catalog filename with
    | none => (Except.error (DlErr.notFound "File not found"), s.catalog)
    | some row =>
      if versionExists s.catalog row.id v then
        (Except.error (DlErr.internal "No item with that key"), s.catalog)
      else
        (Except.error (DlErr.notFound "File not found"), s.catalog)
  | none =>
    match findFileRow s.catalog filename with
    | none => (Except.error (DlErr.notFound "File not found"), s.catalog)
    | some row =>
      let rows := s.catalog.chunks.filter (fun r =>
        decide (r.file_id = row.id ∧ r.version_number = row.current_version ∧
                r.status = ChunkStatus.active))
      match distinctSortedIndices rows with
      | [] => (Except.error (DlErr.notFound "No chunks found for the file"), s.catalog)
      | i :: rest =>
        (gatherChunks c pick s.disk rows (i :: rest), s.catalog)

/-! ## Rollback (server.py:1756-1811) -/

/-- `rollback_version` (server.py:1756-1811): check the version exists, and
unless it is current, deprecate the active chunks of the current version,
re-activate the deprecated chunks of the target version, and set
`current_version`. -/
def rollback (s : Sys) (filename : String) (version : Nat) : Except String Sys :=
  match findFileRow s.catalog filename with
  | none => Except.error "Version not found"
  | some row =>
    if versionExists s.catalog row.id version then
      if version = row.current_version then Except.ok s
      else
        let chunks1 := s.catalog.chunks.map (fun r =>
          if r.file_id = row.id ∧ r.version_number = row.current_version ∧
             r.status = ChunkStatus.active
          then { r with status := ChunkStatus.deprecated } else r)
        let chunks2 := chunks1.map (fun r =>
          if r.file_id = row.id ∧ r.version_number = version ∧
             r.status = ChunkStatus.deprecated
          then { r with status := ChunkStatus.active } else r)
        let metadata1 := s.catalog.metadata.map (fun r =>
          if r.id = row.id then { r with current_version := version } else r)
        Except.ok { s with catalog :=
          { s.catalog with metadata := metadata1, chunks := chunks2 } }
    else Except.error "Version not found"

/-! ## Tier migration (server.py:59-161) -/

/-- `move_to_storage_tier` (server.py:110-161): update
`metadata.storage_tier`, fetch the new tier's `compression_level`, and
iterate over the file's active chunks to re-encode them.  The re-encode
call is `encrypt_and_compress_data(data, compression_level=...)`
(server.py:145-148), but `encrypt_and_compress_data` is defined with the
single parameter `data` (server.py:1244), so every iteration raises
`TypeError: unexpected keyword argument`, which the per-chunk handler at
server.py:154 catches and logs; the loop therefore changes no chunk file.
The model reflects that: the tier is updated and the disk is returned
unchanged. -/
def moveToStorageTier (s : Sys) (fid : Nat) (newTier : String) : Sys :=
  let metadata1 := s.catalog.metadata.map (fun r =>
    if r.id = fid then { r with storage_tier := newTier } else r)
  { s with catalog := { s.catalog with metadata := metadata1 } }

/-- The hot-tier demotion test of `manage_storage_tiers` (server.py:88-92):
tier is hot, more than 30 days since `last_accessed` (falling back to
`upload_timestamp`), and fewer than 10 accesses.  `now` and the timestamps
are in days here. -/
def shouldDemoteHotToWarm (now : Int) (r : FileRow) : Bool :=
  r.storage_tier = "hot" ∧ now - (r.last_accessed.getD r.upload_timestamp) > 30 ∧
    r.access_count < 10

/-! ## Deduplication (server.py:163-206) -/

/-- Group the file ids by non-null `content_hash` in scan order
(`GROUP BY content_hash` with `GROUP_CONCAT(id)`). -/
def dedupGroups (metadata : List FileRow) : List (Bytes × List Nat) :=
  metadata.foldl (fun acc r =>
    match r.content_hash with
    | none => acc
    | some h =>
      if acc.any (fun g => g.1 = h) then
        acc.map (fun g => if g.1 = h then (g.1, g.2 ++ [r.id]) else g)
      else acc ++ [(h, [r.id])]) []

/-- The per-secondary updates of `manage_deduplication` (server.py:184-201):
set `deduplication_ref` to the primary id and bump the `deduplication` row
for the hash — an UPDATE, which changes nothing when no such row exists
(nothing in the source ever inserts one). -/
def applyDedupSecondary (h : Bytes) (primaryId secondaryId : Nat)
    (cat : Catalog) : Catalog :=
  let size := ((cat.metadata.find? (fun r => decide (r.id = secondaryId))).map
    (fun r => r.size)).getD 0
  { cat with
    metadata := cat.metadata.map (fun r =>
      if r.id = secondaryId then { r with deduplication_ref := some primaryId }
      else r)
    deduplication := cat.deduplication.map (fun dr =>
      if dr.content_hash = h then
        { dr with reference_count := dr.reference_count + 1,
                  total_space_saved := dr.total_space_saved + size }
      else dr) }

/-- `manage_deduplication` (server.py:163-206): for every content hash that
at least two files share, keep the first id as primary and apply the
secondary updates to the rest. -/
def manageDeduplication (s : Sys) : Sys :=
  let groups := (dedupGroups s.catalog.metadata).filter (fun g => g.2.length > 1)
  let catalog1 := groups.foldl (fun cat g =>
    match g.2 with
    | [] => cat
    | primaryId :: secondaries =>
      secondaries.foldl (fun cat2 sid => applyDedupSecondary g.1 primaryId sid cat2)
        cat) s.catalog
  { s with catalog := catalog1 }

/-! ## Verification endpoint (server.py:843-931) -/

structure VerifyOutcome where
  verified : List Nat
  corrupted : List Nat
  missing : List Nat
deriving DecidableEq, Repr

/-- `verify_node` (server.py:843-931): for every active chunk row whose
location lies on the node, classify it as missing (file absent), corrupted
(hash mismatch) or verified; the lists carry the chunk row ids. -/
def verifyNode (c : Crypto) (s : Sys) (n : Node) : VerifyOutcome :=
  let rows := s.catalog.chunks.filter (fun r =>
    decide (r.chunk_location.1 = n ∧ r.status = ChunkStatus.active))
  rows.foldl (fun acc r =>
    match s.disk.read r.chunk_location with
    | none => { acc with missing := acc.missing ++ [r.id] }
    | some bs =>
      if c.hash bs = r.chunk_hash then
        { acc with verified := acc.verified ++ [r.id] }
      else
        { acc with corrupted := acc.corrupted ++ [r.id] }) ⟨[], [], []⟩

/-- The active chunk rows violating invariant P3 (hash of the stored bytes
differs from `chunk_hash`, or the file is absent). -/
def integrityViolations (c : Crypto) (s : Sys) : List ChunkRow :=
  s.catalog.chunks.filter (fun r =>
    decide (r.status = ChunkStatus.active) &&
      (match s.disk.read r.chunk_location with
       | some bs => decide (¬ c.hash bs = r.chunk_hash)
       | none => true))

/-! ## Heartbeats, monitor loop, redistribution (server.py:1094-1135, 2086-2200) -/

/-- The in-memory `node_heartbeats` map: node name to last heartbeat time
(seconds). -/
abbrev HeartbeatMap := List (String × Int)

/-- `HEARTBEAT_THRESHOLD = 40` (server.py:44). -/
def HEARTBEAT_THRESHOLD : Int := 40

/-- The nodes one pass of `monitor_nodes` classifies as inactive
(server.py:2119-2127): those whose last heartbeat is more than the
threshold before `now`. -/
def inactiveNodes (now : Int) (hb : HeartbeatMap) : List String :=
  (hb.filter (fun p => decide (HEARTBEAT_THRESHOLD < now - p.2))).map (fun p => p.1)

/-- Try the target nodes for one chunk row of a failed node
(server.py:1107-1131): for each node other than the failed one, in the
fixed ordering, point the row at `<dir(target)>/<basename>`; the bytes are
copied only when the destination file is absent, and an absent source makes
the copy fail, in which case the next target is tried.  Returns the updated
row (unchanged when every target fails) and the disk. -/
def redistributeGo (failedName : String) (d : Disk) (r : ChunkRow) :
    List Node → ChunkRow × Disk
  | [] => (r, d)
  | t :: rest =>
    if t.name = failedName then redistributeGo failedName d r rest
    else
      match d.read (t, r.chunk_location.2) with
      | some _ => ({ r with chunk_location := (t, r.chunk_location.2) }, d)
      | none =>
        match d.read r.chunk_location with
        | some bs => ({ r with chunk_location := (t, r.chunk_location.2) },
            d.write (t, r.chunk_location.2) bs)
        | none => redistributeGo failedName d r rest

def redistributeRow (failedName : String) (d : Disk) (r : ChunkRow) :
    ChunkRow × Disk :=
  redistributeGo failedName d r UPLOAD_FOLDERS

/-- `redistribute_chunks(failed_node)` (server.py:1094-1135): select every
chunk row whose location lies under the failed node's directory
(`LIKE '%name%'`, the node-component test here) and process each in order,
updating the row by id. -/
def redistributeChunks (failedName : String) (s : Sys) : Sys :=
  { s with
      catalog := { s.catalog with
        chunks := ((s.catalog.chunks.filter (fun r =>
            decide (r.chunk_location.1.name = failedName))).foldl
          (fun (st : List ChunkRow × Disk) (r : ChunkRow) =>
            ((st.1.map (fun x => if x.id = r.id then
                { x with chunk_location := (redistributeRow failedName st.2 r).1.chunk_location }
              else x)), (redistributeRow failedName st.2 r).2))
          (s.catalog.chunks, s.disk)).1 }
      disk := ((s.catalog.chunks.filter (fun r =>
          decide (r.chunk_location.1.name = failedName))).foldl
        (fun (st : List ChunkRow × Disk) (r : ChunkRow) =>
          ((st.1.map (fun x => if x.id = r.id then
              { x with chunk_location := (redistributeRow failedName st.2 r).1.chunk_location }
            else x)), (redistributeRow failedName st.2 r).2))
        (s.catalog.chunks, s.disk)).2 }

/-- `handle_node_failure` (server.py:2153-2200) only wraps
`redistribute_chunks` in logging. -/
def handleNodeFailure (failedName : String) (s : Sys) : Sys :=
  redistributeChunks failedName s

/-- One pass of the `monitor_nodes` loop body (server.py:2109-2145):
compute the inactive nodes, and for each one run failure handling and
remove it from the live heartbeat map. -/
def monitorPass (now : Int) (hb : HeartbeatMap) (s : Sys) : HeartbeatMap × Sys :=
  (inactiveNodes now hb).foldl
    (fun (st : HeartbeatMap × Sys) nm =>
      let s1 := handleNodeFailure nm st.2
      (st.1.filter (fun p => decide (¬ p.1 = nm)), s1))
    (hb, s)

/-! ## Helper lemmas: disk -/

theorem find_filter_of_imp {α : Type} (p q : α → Bool) (l : List α)
    (h : ∀ e, p e = true → q e = true) :
    (l.filter q).find? p = l.find? p := by
  induction l with
  | nil => rfl
  | cons e rest ih =>
    by_cases hq : q e = true
    · rw [List.filter_cons_of_pos hq]
      by_cases hp : p e = true
      · rw [List.find?_cons_of_pos _ hp, List.find?_cons_of_pos _ hp]
      · rw [List.find?_cons_of_neg _ hp, List.find?_cons_of_neg _ hp, ih]
    · have hp : ¬ p e = true := fun hpe => hq (h e hpe)
      rw [List.filter_cons_of_neg (by simpa using hq), ih,
          List.find?_cons_of_neg _ hp]

theorem Disk.read_write_self (d : Disk) (l : Loc) (b : Bytes) :
    (d.write l b).read l = some b := by
  simp [Disk.read, Disk.write]

theorem Disk.read_write_other (d : Disk) (l l' : Loc) (b : Bytes) (h : ¬ l' = l) :
    (d.write l b).read l' = d.read l' := by
  simp only [Disk.read, Disk.write]
  rw [List.find?_cons_of_neg _ (by simp only [decide_eq_true_eq]; intro hc; exact h hc.symm),
      find_filter_of_imp]
  intro e he
  simp only [decide_eq_true_eq] at he ⊢
  intro hc
  exact h (by rw [← he, hc])

/-! ## Helper lemmas: chunking -/

theorem chunksOfFuel_irrel (n : Nat) (hn : 0 < n) :
    ∀ (f1 f2 : Nat) (b : Bytes), b.length ≤ f1 → b.length ≤ f2 →
      chunksOfFuel n f1 b = chunksOfFuel n f2 b := by
  intro f1
  induction f1 with
  | zero =>
    intro f2 b h1 _
    cases b with
    | nil => cases f2 <;> rfl
    | cons x xs => simp at h1
  | succ f ih =>
    intro f2 b h1 h2
    cases b with
    | nil => cases f2 <;> rfl
    | cons x xs =>
      cases f2 with
      | zero => simp at h2
      | succ f2' =>
        simp only [chunksOfFuel]
        congr 1
        apply ih
        · rw [List.length_drop]
          simp only [List.length_cons] at h1 ⊢
          omega
        · rw [List.length_drop]
          simp only [List.length_cons] at h2 ⊢
          omega

theorem chunksOfFuel_flatten (n : Nat) (hn : 0 < n) :
    ∀ (fuel : Nat) (b : Bytes), b.length ≤ fuel →
      (chunksOfFuel n fuel b).flatten = b := by
  intro fuel
  induction fuel with
  | zero =>
    intro b h
    cases b with
    | nil => rfl
    | cons x xs => simp at h
  | succ f ih =>
    intro b h
    cases b with
    | nil => rfl
    | cons x xs =>
      simp only [chunksOfFuel, List.flatten]
      rw [ih _ (by rw [List.length_drop]; simp only [List.length_cons] at h ⊢; omega)]
      exact List.take_append_drop n (x :: xs)

theorem chunksOf_flatten (n : Nat) (hn : 0 < n) (b : Bytes) :
    (chunksOf n b).flatten = b :=
  chunksOfFuel_flatten n hn b.length b (Nat.le_refl _)

theorem chunksOf_ne_nil (n : Nat) (b : Bytes) (hb : b ≠ []) :
    chunksOf n b ≠ [] := by
  cases b with
  | nil => exact absurd rfl hb
  | cons x xs =>
    show chunksOfFuel n (xs.length + 1) (x :: xs) ≠ []
    simp [chunksOfFuel]

/-! ## Helper lemmas: placement -/

theorem foldl_min_mem (d : Disk) (acc : Node) (l : List Node) :
    l.foldl (fun best m => if usedSpace d m < usedSpace d best then m else best) acc = acc ∨
    l.foldl (fun best m => if usedSpace d m < usedSpace d best then m else best) acc ∈ l := by
  induction l generalizing acc with
  | nil => exact Or.inl rfl
  | cons m rest ih =>
    simp only [List.foldl]
    by_cases hm : usedSpace d m < usedSpace d acc
    · rw [if_pos hm]
      rcases ih m with h | h
      · exact Or.inr (by rw [h]; exact List.mem_cons_self m rest)
      · exact Or.inr (List.mem_cons_of_mem m h)
    · rw [if_neg hm]
      rcases ih acc with h | h
      · exact Or.inl h
      · exact Or.inr (List.mem_cons_of_mem m h)

theorem foldl_min_le (d : Disk) (acc : Node) (l : List Node) :
    usedSpace d (l.foldl (fun best m => if usedSpace d m < usedSpace d best then m else best) acc) ≤ usedSpace d acc ∧
    ∀ m ∈ l, usedSpace d (l.foldl (fun best m => if usedSpace d m < usedSpace d best then m else best) acc) ≤ usedSpace d m := by
  induction l generalizing acc with
  | nil => exact ⟨Nat.le_refl _, by intro m hm; cases hm⟩
  | cons m rest ih =>
    simp only [List.foldl]
    by_cases hm : usedSpace d m < usedSpace d acc
    · rw [if_pos hm]
      refine ⟨Nat.le_trans (ih m).1 (Nat.le_of_lt hm), ?_⟩
      intro x hx
      rcases List.mem_cons.mp hx with hx | hx
      · rw [hx]; exact (ih m).1
      · exact (ih m).2 x hx
    · rw [if_neg hm]
      refine ⟨(ih acc).1, ?_⟩
      intro x hx
      rcases List.mem_cons.mp hx with hx | hx
      · rw [hx]; exact Nat.le_trans (ih acc).1 (Nat.le_of_not_lt hm)
      · exact (ih acc).2 x hx

theorem foldl_min_first (d : Disk) (acc : Node) (l : List Node) :
    (acc :: l).find? (fun m => decide (usedSpace d m ≤
        usedSpace d (l.foldl (fun best m => if usedSpace d m < usedSpace d best then m else best) acc))) =
      some (l.foldl (fun best m => if usedSpace d m < usedSpace d best then m else best) acc) := by
  induction l generalizing acc with
  | nil =>
    simp only [List.foldl]
    rw [List.find?_cons_of_pos _ (by simp)]
  | cons m rest ih =>
    simp only [List.foldl]
    by_cases hm : usedSpace d m < usedSpace d acc
    · simp only [if_pos hm]
      have hres := (foldl_min_le d m rest).1
      rw [List.find?_cons_of_neg _ (by
        simp only [decide_eq_true_eq]
        omega)]
      exact ih m
    · simp only [if_neg hm]
      have hres := (foldl_min_le d acc rest).1
      by_cases hacc : usedSpace d acc ≤
          usedSpace d (rest.foldl (fun best m => if usedSpace d m < usedSpace d best then m else best) acc)
      · have heq : usedSpace d (rest.foldl (fun best m => if usedSpace d m < usedSpace d best then m else best) acc) = usedSpace d acc := Nat.le_antisymm hres hacc
        rw [List.find?_cons_of_pos _ (by simp only [decide_eq_true_eq]; omega)]
        have := ih acc
        rw [List.find?_cons_of_pos _ (by simp only [decide_eq_true_eq]; omega)] at this
        exact this
      · rw [List.find?_cons_of_neg _ (by simp only [decide_eq_true_eq]; omega),
            List.find?_cons_of_neg _ (by simp only [decide_eq_true_eq]; omega)]
        have := ih acc
        rw [List.find?_cons_of_neg _ (by simp only [decide_eq_true_eq]; omega)] at this
        exact this

theorem selectStorageNode_mem (S : Nat) (E : List Node) (d : Disk) (n : Node)
    (h : selectStorageNode S E d = Except.ok n) : n ∈ selectCandidates S E d := by
  unfold selectStorageNode at h
  cases hc : selectCandidates S E d with
  | nil => rw [hc] at h; simp [pickMinUsed] at h
  | cons m rest =>
    rw [hc] at h
    simp only [pickMinUsed, Except.ok.injEq] at h
    cases h
    rcases foldl_min_mem d m rest with h | h
    · rw [h]; exact List.mem_cons_self m rest
    · exact List.mem_cons_of_mem m h

theorem selectCandidates_spec (S : Nat) (E : List Node) (d : Disk) (n : Node) :
    n ∈ selectCandidates S E d ↔
      n ∈ UPLOAD_FOLDERS ∧ ¬ n ∈ E ∧ (S : Int) ≤ availableSpace d n := by
  simp [selectCandidates, List.mem_filter, decide_eq_true_eq, and_assoc]

/-! ## Helper lemmas: replication -/

theorem replicaStep_disk_preserves (p : Bytes) (bn : Basename)
    (st : List Node × List Loc × Disk) (l : Loc)
    (hfill : (st.2.2.read l).isSome) :
    ((replicaStep p bn st).2.2).read l = st.2.2.read l := by
  rcases st with ⟨excluded, locs, d⟩
  simp only [replicaStep]
  cases hsel : selectStorageNode p.length excluded d with
  | error e => rfl
  | ok n =>
    simp only
    by_cases hex : (d.read (n, bn)).isSome
    · rw [if_pos hex]
    · rw [if_neg hex]
      simp only
      apply Disk.read_write_other
      intro hc
      rw [hc] at hfill
      rw [Option.isSome_iff_exists] at hfill hex
      rcases hfill with ⟨v, hv⟩
      exact hex ⟨v, hv⟩

theorem replicaStep_changed (p : Bytes) (bn : Basename)
    (st : List Node × List Loc × Disk) (l : Loc)
    (hch : ¬ ((replicaStep p bn st).2.2).read l = st.2.2.read l) :
    st.2.2.read l = none ∧ l.2 = bn ∧ ((replicaStep p bn st).2.2).read l = some p := by
  rcases st with ⟨excluded, locs, d⟩
  simp only [replicaStep] at hch ⊢
  cases hsel : selectStorageNode p.length excluded d with
  | error e => rw [hsel] at hch; exact absurd rfl hch
  | ok n =>
    rw [hsel] at hch
    simp only at hch ⊢
    by_cases hex : (d.read (n, bn)).isSome
    · rw [if_pos hex] at hch; exact absurd rfl hch
    · rw [if_neg hex] at hch ⊢
      simp only at hch ⊢
      by_cases hl : l = (n, bn)
      · subst hl
        refine ⟨?_, rfl, ?_⟩
        · cases hr : d.read (n, bn) with
          | none => rfl
          | some v => rw [hr] at hex; simp at hex
        · exact Disk.read_write_self d (n, bn) p
      · rw [Disk.read_write_other d (n, bn) l p hl] at hch
        exact absurd rfl hch

theorem replicaStep_locs (p : Bytes) (bn : Basename)
    (st : List Node × List Loc × Disk) :
    ∀ l ∈ (replicaStep p bn st).2.1,
      l ∈ st.2.1 ∨ (l.2 = bn ∧ ((replicaStep p bn st).2.2).read l = some p) := by
  rcases st with ⟨excluded, locs, d⟩
  intro l hl
  simp only [replicaStep] at hl ⊢
  cases hsel : selectStorageNode p.length excluded d with
  | error e => rw [hsel] at hl; exact Or.inl hl
  | ok n =>
    rw [hsel] at hl
    simp only at hl ⊢
    by_cases hex : (d.read (n, bn)).isSome
    · rw [if_pos hex] at hl ⊢; exact Or.inl hl
    · rw [if_neg hex] at hl ⊢
      simp only at hl ⊢
      rcases List.mem_append.mp hl with h | h
      · exact Or.inl h
      · rcases List.mem_singleton.mp h with rfl
        exact Or.inr ⟨rfl, Disk.read_write_self d (n, bn) p⟩

theorem replicateChunk_spec (d : Disk) (loc : Loc) (payload : Bytes)
    (locs : List Loc) (d1 : Disk)
    (hsrc : d.read loc = some payload)
    (h : replicateChunk d loc = Except.ok (locs, d1)) :
    (∀ l, (d.read l).isSome → d1.read l = d.read l) ∧
    (∀ l, ¬ d1.read l = d.read l →
       d.read l = none ∧ l.2 = loc.2 ∧ d1.read l = some payload) ∧
    (∀ l ∈ locs, l.2 = loc.2 ∧ d1.read l = some payload) := by
  unfold replicateChunk at h
  rw [hsrc] at h
  simp only [Except.ok.injEq, Prod.mk.injEq] at h
  set st1 := replicaStep payload loc.2 ([loc.1], [], d) with hst1
  have hd1 : d1 = (replicaStep payload loc.2 st1).2.2 := by
    rw [← h.2]
  have hlocs : locs = (replicaStep payload loc.2 st1).2.1 := by
    rw [← h.1]
  have pres1 : ∀ l, (d.read l).isSome → st1.2.2.read l = d.read l := by
    intro l hl
    exact replicaStep_disk_preserves payload loc.2 ([loc.1], [], d) l hl
  have pres2 : ∀ l, (st1.2.2.read l).isSome →
      ((replicaStep payload loc.2 st1).2.2).read l = st1.2.2.read l := by
    intro l hl
    exact replicaStep_disk_preserves payload loc.2 st1 l hl
  have presAll : ∀ l, (d.read l).isSome → d1.read l = d.read l := by
    intro l hl
    rw [hd1, pres2 l (by rw [pres1 l hl]; exact hl), pres1 l hl]
  refine ⟨presAll, ?_, ?_⟩
  · intro l hch
    rw [hd1] at hch ⊢
    by_cases h1 : st1.2.2.read l = d.read l
    · have hch2 : ¬ ((replicaStep payload loc.2 st1).2.2).read l = st1.2.2.read l := by
        rw [h1]; exact hch
      have := replicaStep_changed payload loc.2 st1 l hch2
      exact ⟨by rw [← h1]; exact this.1, this.2.1, this.2.2⟩
    · have := replicaStep_changed payload loc.2 ([loc.1], [], d) l h1
      refine ⟨this.1, this.2.1, ?_⟩
      rw [pres2 l (by rw [this.2.2]; rfl), this.2.2]
  · intro l hl
    rw [hlocs] at hl
    rcases replicaStep_locs payload loc.2 st1 l hl with h1 | h1
    · rcases replicaStep_locs payload loc.2 ([loc.1], [], d) l h1 with h2 | h2
      · simp at h2
      · refine ⟨h2.1, ?_⟩
        rw [hd1, pres2 l (by rw [h2.2]; rfl), h2.2]
    · exact ⟨h1.1, by rw [hd1]; exact h1.2⟩

theorem replicateChunk_skip (d : Disk) (loc : Loc) (payload : Bytes)
    (hsrc : d.read loc = some payload)
    (hall : ∀ n : Node, ¬ n = loc.1 → (d.read (n, loc.2)).isSome) :
    replicateChunk d loc = Except.ok ([], d) := by
  unfold replicateChunk
  simp only [hsrc]
  have hstep : replicaStep payload loc.2 ([loc.1], [], d) = ([loc.1], [], d) := by
    simp only [replicaStep]
    cases hsel : selectStorageNode payload.length [loc.1] d with
    | error e => rfl
    | ok n =>
      simp only
      have hmem := selectStorageNode_mem _ _ _ _ hsel
      have hne : ¬ n = loc.1 := by
        have := (selectCandidates_spec _ _ _ _).mp hmem
        intro hc
        exact this.2.1 (by rw [hc]; exact List.mem_singleton.mpr rfl)
      rw [if_pos (hall n hne)]
  rw [hstep, hstep]


/-! ## Helper lemmas: the chunk-writing phase of upload -/

theorem writeChunks_spec (c : Crypto) (f : String) :
    ∀ (ps : List Bytes) (d : Disk) (i : Nat) (d' : Disk) (L : List (Nat × Loc)),
      writeChunks c f d i ps = Except.ok (d', L) →
      L.length = ps.length ∧
      (∀ k e ch, L.get? k = some e → ps.get? k = some ch →
         e.1 = i + k ∧ e.2.2 = (f, i + k) ∧ d'.read e.2 = some (c.encodeChunk ch)) ∧
      (∀ l : Loc, (∀ k, k < ps.length → ¬ l.2 = (f, i + k)) → d'.read l = d.read l) ∧
      (∀ k e, L.get? k = some e → ∀ n : Node, ¬ n = e.2.1 →
         d'.read (n, (f, e.1)) = d.read (n, (f, e.1))) := by
  intro ps
  induction ps with
  | nil =>
    intro d i d' L h
    simp only [writeChunks, Except.ok.injEq, Prod.mk.injEq] at h
    rcases h with ⟨rfl, rfl⟩
    refine ⟨rfl, ?_, ?_, ?_⟩
    · intro k e ch he; simp at he
    · intro l _; rfl
    · intro k e he; simp at he
  | cons piece rest ih =>
    intro d i d' L h
    simp only [writeChunks] at h
    cases hsel : selectStorageNode (c.encodeChunk piece).length [] d with
    | error e => rw [hsel] at h; cases h
    | ok target =>
      rw [hsel] at h
      simp only at h
      cases hrec : writeChunks c f (d.write (target, (f, i)) (c.encodeChunk piece)) (i + 1) rest with
      | error e => rw [hrec] at h; cases h
      | ok p =>
        rcases p with ⟨d2, L'⟩
        rw [hrec] at h
        simp only [Except.ok.injEq, Prod.mk.injEq] at h
        rcases h with ⟨rfl, rfl⟩
        rcases ih _ _ _ _ hrec with ⟨ihlen, ihpos, ihframe, ihother⟩
        refine ⟨by simp [ihlen], ?_, ?_, ?_⟩
        · intro k e ch he hch
          cases k with
          | zero =>
            simp only [List.get?_cons_zero, Option.some.injEq] at he hch
            subst he; subst hch
            refine ⟨by simp, by simp, ?_⟩
            rw [ihframe]
            · exact Disk.read_write_self _ _ _
            · intro k hk
              simp only [Prod.mk.injEq, not_and]
              intro _ hc
              omega
          | succ k' =>
            simp only [List.get?_cons_succ] at he hch
            have := ihpos k' e ch he hch
            refine ⟨by omega, ?_, this.2.2⟩
            rw [this.2.1]
            congr 1
            omega
        · intro l hl
          rw [ihframe l ?later]
          · apply Disk.read_write_other
            intro hc
            have := hl 0 (by simp)
            rw [hc] at this
            simp at this
          case later =>
            intro k hk
            have := hl (k + 1) (by simp only [List.length_cons]; omega)
            intro hc
            rw [hc] at this
            exact this (by rw [Nat.add_assoc, Nat.add_comm 1 k])
        · intro k e he n hn
          cases k with
          | zero =>
            simp only [List.get?_cons_zero, Option.some.injEq] at he
            subst he
            simp only at hn ⊢
            rw [ihframe]
            · apply Disk.read_write_other
              intro hc
              rw [Prod.mk.injEq] at hc
              exact hn hc.1
            · intro k hk
              simp only [Prod.mk.injEq, not_and]
              intro _ hc
              omega
          | succ k' =>
            simp only [List.get?_cons_succ] at he
            have hlt : k' < rest.length := by
              rw [← ihlen]
              exact List.get?_eq_some.mp he |>.1
            obtain ⟨ch, hch⟩ : ∃ ch, rest.get? k' = some ch :=
              ⟨rest.get ⟨k', hlt⟩, List.get?_eq_get hlt⟩
            have hpos := ihpos k' e ch he hch
            rw [ihother k' e he n hn]
            apply Disk.read_write_other
            intro hc
            rw [Prod.mk.injEq] at hc
            rcases hc with ⟨_, hc2⟩
            rw [hpos.1] at hc2
            simp only [Prod.mk.injEq] at hc2
            omega

/-! ## Helper lemmas: the chunk-row phase of upload -/

theorem snd_mem_of_mem_enumFrom {α : Type} :
    ∀ (l : List α) (n : Nat) (p : Nat × α), p ∈ l.enumFrom n → p.2 ∈ l := by
  intro l
  induction l with
  | nil => intro n p h; simp at h
  | cons x xs ih =>
    intro n p h
    rw [List.enumFrom_cons] at h
    rcases List.mem_cons.mp h with h | h
    · rw [h]; exact List.mem_cons_self x xs
    · exact List.mem_cons_of_mem x (ih (n + 1) p h)

theorem storeChunkRows_spec (c : Crypto) (fid v : Nat) (f : String) (P : Nat → Bytes) :
    ∀ (L : List (Nat × Loc)) (d : Disk) (cid : Nat) (d' : Disk)
      (rows : List ChunkRow) (cid' : Nat) (nodes : List Node),
      storeChunkRows c fid v d cid L = Except.ok (d', rows, cid', nodes) →
      (∀ e ∈ L, d.read e.2 = some (P e.1) ∧ e.2.2 = (f, e.1)) →
      (∀ l, (d.read l).isSome → d'.read l = d.read l) ∧
      (∀ r ∈ rows, r.file_id = fid ∧ r.version_number = v ∧
         r.status = ChunkStatus.active ∧
         r.chunk_location.2 = (f, r.chunk_index) ∧
         r.chunk_hash = c.hash (P r.chunk_index) ∧
         d'.read r.chunk_location = some (P r.chunk_index) ∧
         (∃ e ∈ L, e.1 = r.chunk_index)) ∧
      (∀ e ∈ L, ∃ r ∈ rows, r.chunk_index = e.1) ∧
      (∀ l, ¬ d'.read l = d.read l → d.read l = none ∧ ∃ e ∈ L, l.2 = e.2.2) := by
  intro L
  induction L with
  | nil =>
    intro d cid d' rows cid' nodes h _
    simp only [storeChunkRows, Except.ok.injEq, Prod.mk.injEq] at h
    rcases h with ⟨rfl, rfl, rfl, rfl⟩
    refine ⟨fun l _ => rfl, ?_, ?_, ?_⟩
    · intro r hr; simp at hr
    · intro e he; simp at he
    · intro l hl; exact absurd rfl hl
  | cons e rest ih =>
    rcases e with ⟨i, loc⟩
    intro d cid d' rows cid' nodes h HL
    have hhead := HL (i, loc) (List.mem_cons_self _ _)
    simp only at hhead
    simp only [storeChunkRows] at h
    rw [hhead.1] at h
    simp only at h
    cases hrep : replicateChunk d loc with
    | error er => rw [hrep] at h; cases h
    | ok pr =>
      rcases pr with ⟨rlocs, d1⟩
      rw [hrep] at h
      simp only at h
      cases hrec : storeChunkRows c fid v d1 (cid + 1 + rlocs.length) rest with
      | error er => rw [hrec] at h; cases h
      | ok q =>
        rcases q with ⟨d2, rows', cid2, nodes'⟩
        rw [hrec] at h
        simp only [Except.ok.injEq, Prod.mk.injEq] at h
        rcases h with ⟨rfl, rfl, rfl, rfl⟩
        rcases replicateChunk_spec d loc (P i) rlocs d1 hhead.1 hrep with
          ⟨rpres, rchanged, rlocsspec⟩
        have HL1 : ∀ e ∈ rest, d1.read e.2 = some (P e.1) ∧ e.2.2 = (f, e.1) := by
          intro e he
          have := HL e (List.mem_cons_of_mem _ he)
          refine ⟨?_, this.2⟩
          rw [rpres e.2 (by rw [this.1]; rfl)]
          exact this.1
        rcases ih d1 (cid + 1 + rlocs.length) d2 rows' cid2 nodes' hrec HL1 with
          ⟨ipres, irows, icov, ichanged⟩
        have presStep : ∀ l, (d.read l).isSome → d2.read l = d.read l := by
          intro l hl
          rw [ipres l (by rw [rpres l hl]; exact hl), rpres l hl]
        refine ⟨presStep, ?_, ?_, ?_⟩
        · intro r hr
          rcases List.mem_cons.mp hr with hr | hr
          · subst hr
            simp only
            refine ⟨trivial, trivial, trivial, hhead.2, trivial, ?_,
              ⟨(i, loc), List.mem_cons_self _ _, rfl⟩⟩
            rw [presStep loc (by rw [hhead.1]; rfl), hhead.1]
          · rcases List.mem_append.mp hr with hr | hr
            · simp only [List.mem_map] at hr
              rcases hr with ⟨p, hp, rfl⟩
              have hsnd := snd_mem_of_mem_enumFrom rlocs (cid + 1) p hp
              have hspec := rlocsspec p.2 hsnd
              simp only
              refine ⟨trivial, trivial, trivial, by rw [hspec.1]; exact hhead.2, trivial, ?_,
                ⟨(i, loc), List.mem_cons_self _ _, rfl⟩⟩
              rw [ipres p.2 (by rw [hspec.2]; rfl), hspec.2]
            · have := irows r hr
              refine ⟨this.1, this.2.1, this.2.2.1, this.2.2.2.1, this.2.2.2.2.1,
                this.2.2.2.2.2.1, ?_⟩
              rcases this.2.2.2.2.2.2 with ⟨e, he, heq⟩
              exact ⟨e, List.mem_cons_of_mem _ he, heq⟩
        · intro e he
          rcases List.mem_cons.mp he with he | he
          · subst he
            exact ⟨_, List.mem_cons_self _ _, rfl⟩
          · rcases icov e he with ⟨r, hr, hreq⟩
            exact ⟨r, List.mem_cons_of_mem _ (List.mem_append_right _ hr), hreq⟩
        · intro l hl
          by_cases h1 : d1.read l = d.read l
          · have h2 : ¬ d2.read l = d1.read l := by rw [h1]; exact hl
            rcases ichanged l h2 with ⟨hnone, e, he, heq⟩
            exact ⟨by rw [← h1]; exact hnone, e, List.mem_cons_of_mem _ he, heq⟩
          · rcases rchanged l h1 with ⟨hnone, hbn, _⟩
            exact ⟨hnone, (i, loc), List.mem_cons_self _ _, hbn⟩

/-! ## Helper lemmas: upload characterization -/

/-- No file of this name is in the catalog yet. -/
def FreshFile (s : Sys) (f : String) : Prop :=
  ∀ r ∈ s.catalog.metadata, ¬ r.filename = f

/-- The AUTOINCREMENT counters bound every id in the catalog (true of every
state the server builds). -/
structure WFSys (s : Sys) : Prop where
  meta_lt : ∀ r ∈ s.catalog.metadata, r.id < s.nextFileId
  chunks_lt : ∀ r ∈ s.catalog.chunks, r.file_id < s.nextFileId
  versions_lt : ∀ v ∈ s.catalog.versions, v.file_id < s.nextFileId

def uploadNumChunks (data : Bytes) : Nat := (chunksOf CHUNK_SIZE data).length

/-- The stored payload of chunk `k` of an upload of `data`. -/
def uploadPayload (c : Crypto) (data : Bytes) (k : Nat) : Bytes :=
  match (chunksOf CHUNK_SIZE data).get? k with
  | some piece => c.encodeChunk piece
  | none => []

def uploadFileId (s : Sys) (f : String) : Nat :=
  match findFileRow s.catalog f with
  | some r => r.id
  | none => s.nextFileId

def uploadNewVersion (s : Sys) (f : String) : Nat :=
  (match findFileRow s.catalog f with
   | some r => r.current_version
   | none => 0) + 1

theorem upload_spec (c : Crypto) (now : Int) (s : Sys) (f : String) (data : Bytes)
    (s' : Sys) (hw : ∀ r ∈ s.catalog.metadata, r.id < s.nextFileId)
    (h : upload c now s f data = Except.ok s') :
    (∀ l : Loc, (∀ k, k < uploadNumChunks data → ¬ l.2 = (f, k)) →
        s'.disk.read l = s.disk.read l) ∧
    (∀ i, i < uploadNumChunks data → ∃ nw : Node, ∀ n : Node, ¬ n = nw →
        (s.disk.read (n, (f, i))).isSome →
        s'.disk.read (n, (f, i)) = s.disk.read (n, (f, i))) ∧
    (∃ rows : List ChunkRow,
       s'.catalog.chunks = s.catalog.chunks ++ rows ∧
       (∀ r ∈ rows, r.file_id = uploadFileId s f ∧
          r.version_number = uploadNewVersion s f ∧
          r.status = ChunkStatus.active ∧
          r.chunk_location.2 = (f, r.chunk_index) ∧
          r.chunk_hash = c.hash (uploadPayload c data r.chunk_index) ∧
          s'.disk.read r.chunk_location = some (uploadPayload c data r.chunk_index) ∧
          r.chunk_index < uploadNumChunks data) ∧
       (∀ i, i < uploadNumChunks data → ∃ r ∈ rows, r.chunk_index = i)) ∧
    (∃ tc, s'.catalog.versions = s.catalog.versions ++
       [⟨uploadFileId s f, uploadNewVersion s f, data.length, tc, c.hash data⟩]) ∧
    (findFileRow s.catalog f = none →
       ∃ R : FileRow, s'.catalog.metadata = s.catalog.metadata ++ [R] ∧
         R.id = s.nextFileId ∧ R.filename = f ∧ R.current_version = 1 ∧
         s'.nextFileId = s.nextFileId + 1) ∧
    (∀ R0 : FileRow, findFileRow s.catalog f = some R0 →
       ∃ (loc0 : Node) (reps : List Node) (tc : Nat),
         s'.catalog.metadata = s.catalog.metadata.map (fun r =>
           if r.id = R0.id then
             { r with current_version := R0.current_version + 1, size := data.length,
                      compressed_size := tc, upload_timestamp := now,
                      location := loc0, replicas := reps }
           else r) ∧
         s'.nextFileId = s.nextFileId) := by
  unfold upload at h
  cases hsel : selectStorageNode data.length [] s.disk with
  | error e => rw [hsel] at h; cases h
  | ok initialNode =>
    rw [hsel] at h
    simp only at h
    cases hwc : writeChunks c f s.disk 0 (chunksOf CHUNK_SIZE data) with
    | error e => rw [hwc] at h; cases h
    | ok p =>
      rcases p with ⟨d1, recorded⟩
      rw [hwc] at h
      simp only at h
      rcases writeChunks_spec c f (chunksOf CHUNK_SIZE data) s.disk 0 d1 recorded hwc with
        ⟨wlen, wpos, wframe, wother⟩
      have hN : recorded.length = uploadNumChunks data := wlen
      -- The payload stored for the entry at position k is uploadPayload k.
      have hPk : ∀ k e, recorded.get? k = some e →
          e.1 = k ∧ e.2.2 = (f, k) ∧ d1.read e.2 = some (uploadPayload c data k) := by
        intro k e he
        have hk : k < recorded.length := (List.get?_eq_some.mp he).1
        have hk2 : k < (chunksOf CHUNK_SIZE data).length := by rw [← wlen]; exact hk
        obtain ⟨ch, hch⟩ : ∃ ch, (chunksOf CHUNK_SIZE data).get? k = some ch :=
          ⟨_, List.get?_eq_get hk2⟩
        have := wpos k e ch he hch
        refine ⟨by rw [this.1]; omega, by rw [this.2.1]; congr 1; omega, ?_⟩
        rw [this.2.2]
        unfold uploadPayload
        rw [hch]
      have HL : ∀ e ∈ recorded,
          d1.read e.2 = some (uploadPayload c data e.1) ∧ e.2.2 = (f, e.1) := by
        intro e he
        obtain ⟨k, hk⟩ := List.get?_of_mem he
        have := hPk k e hk
        rw [this.1]
        exact ⟨this.2.2, this.2.1⟩
      cases hsc : storeChunkRows c (uploadFileId s f) (uploadNewVersion s f) d1
          s.nextChunkId recorded with
      | error e =>
        have : storeChunkRows c
            (match findFileRow s.catalog f with | some r => r.id | none => s.nextFileId)
            ((match findFileRow s.catalog f with | some r => r.current_version | none => 0) + 1)
            d1 s.nextChunkId recorded = Except.error e := hsc
        rw [this] at h
        cases h
      | ok q =>
        rcases q with ⟨d2, newRows, cid2, nodesUsed⟩
        have hsc' : storeChunkRows c
            (match findFileRow s.catalog f with | some r => r.id | none => s.nextFileId)
            ((match findFileRow s.catalog f with | some r => r.current_version | none => 0) + 1)
            d1 s.nextChunkId recorded = Except.ok (d2, newRows, cid2, nodesUsed) := hsc
        rw [hsc'] at h
        simp only at h
        rcases storeChunkRows_spec c (uploadFileId s f) (uploadNewVersion s f) f
            (uploadPayload c data) recorded d1 s.nextChunkId d2 newRows cid2 nodesUsed
            hsc HL with ⟨spres, srows, scov, schanged⟩
        have hdisk2 : s'.disk = d2 := by
          cases hex : findFileRow s.catalog f <;> rw [hex] at h <;>
            simp only [Except.ok.injEq] at h <;> rw [← h]
        refine ⟨?_, ?_, ?_, ?_, ?_, ?_⟩
        · -- frame
          intro l hl
          rw [hdisk2]
          have h1 : d1.read l = s.disk.read l := by
            apply wframe
            intro k hk
            have := hl k (by unfold uploadNumChunks; exact hk)
            simpa using this
          by_cases h2 : d2.read l = d1.read l
          · rw [h2, h1]
          · rcases schanged l h2 with ⟨_, e, he, heq⟩
            obtain ⟨k, hk⟩ := List.get?_of_mem he
            have hke := hPk k e hk
            have hkN : k < uploadNumChunks data := by
              rw [← hN]; exact (List.get?_eq_some.mp hk).1
            exact absurd (by rw [heq, hke.2.1]) (hl k hkN)
        · -- at most one overwrite per basename among previously filled slots
          intro i hi
          obtain ⟨e, he⟩ : ∃ e, recorded.get? i = some e := by
            have : i < recorded.length := by rw [hN]; exact hi
            exact ⟨_, List.get?_eq_get this⟩
          have hie := hPk i e he
          refine ⟨e.2.1, ?_⟩
          intro n hn hfill
          rw [hdisk2]
          have h1 : d1.read (n, (f, i)) = s.disk.read (n, (f, i)) := by
            have := wother i e he n hn
            rw [hie.1] at this
            exact this
          rw [spres (n, (f, i)) (by rw [h1]; exact hfill), h1]
        · -- chunk rows
          refine ⟨newRows, ?_, ?_, ?_⟩
          · cases hex : findFileRow s.catalog f <;> rw [hex] at h <;>
              simp only [Except.ok.injEq] at h <;> rw [← h]
          · intro r hr
            have := srows r hr
            refine ⟨this.1, this.2.1, this.2.2.1, this.2.2.2.1, this.2.2.2.2.1,
              by rw [hdisk2]; exact this.2.2.2.2.2.1, ?_⟩
            rcases this.2.2.2.2.2.2 with ⟨e, he, heq⟩
            obtain ⟨k, hk⟩ := List.get?_of_mem he
            have := hPk k e hk
            rw [← heq, this.1, ← hN]
            exact (List.get?_eq_some.mp hk).1
          · intro i hi
            obtain ⟨e, he⟩ : ∃ e, recorded.get? i = some e := by
              have : i < recorded.length := by rw [hN]; exact hi
              exact ⟨_, List.get?_eq_get this⟩
            have hie := hPk i e he
            rcases scov e (List.get?_mem he) with ⟨r, hr, hreq⟩
            exact ⟨r, hr, by rw [hreq, hie.1]⟩
        · -- versions
          refine ⟨((chunksOf CHUNK_SIZE data).map (fun p => (c.encodeChunk p).length)).sum, ?_⟩
          unfold uploadFileId uploadNewVersion
          cases hex : findFileRow s.catalog f <;> rw [hex] at h <;>
            simp only [Except.ok.injEq] at h <;> rw [← h]
        · -- fresh metadata
          intro hex
          rw [hex] at h
          simp only [Except.ok.injEq] at h
          refine ⟨{ id := s.nextFileId, filename := f, current_version := 1,
                    size := data.length,
                    compressed_size := ((chunksOf CHUNK_SIZE data).map
                      (fun p => (c.encodeChunk p).length)).sum,
                    upload_timestamp := now, location := initialNode, replicas :=
                      UPLOAD_FOLDERS.filter (fun n => n ∈ nodesUsed),
                    storage_tier := "hot", last_accessed := none, access_count := 0,
                    is_archived := false, content_hash := none,
                    deduplication_ref := none }, ?_, rfl, rfl, rfl, by rw [← h]⟩
          rw [← h]
          simp only [List.map_append, List.map_cons, List.map_nil]
          have holds : s.catalog.metadata.map (fun r =>
              if r.id = s.nextFileId then
                { r with replicas := UPLOAD_FOLDERS.filter (fun n => n ∈ nodesUsed) }
              else r) = s.catalog.metadata := by
            have hpt : ∀ r ∈ s.catalog.metadata,
                (if r.id = s.nextFileId then
                  { r with replicas := UPLOAD_FOLDERS.filter (fun n => n ∈ nodesUsed) }
                 else r) = r := by
              intro r hr
              rw [if_neg]
              intro hc
              exact absurd hc (Nat.ne_of_lt (hw r hr))
            calc s.catalog.metadata.map (fun r =>
                  if r.id = s.nextFileId then
                    { r with replicas := UPLOAD_FOLDERS.filter (fun n => n ∈ nodesUsed) }
                  else r)
                = s.catalog.metadata.map id := List.map_congr_left hpt
              _ = s.catalog.metadata := List.map_id _
          rw [holds]
          simp
        · -- existing metadata
          intro R0 hex
          rw [hex] at h
          simp only [Except.ok.injEq] at h
          refine ⟨initialNode, UPLOAD_FOLDERS.filter (fun n => n ∈ nodesUsed),
            ((chunksOf CHUNK_SIZE data).map (fun p => (c.encodeChunk p).length)).sum,
            ?_, by rw [← h]⟩
          rw [← h]
          simp only [List.map_map]
          apply List.map_congr_left
          intro r _
          simp only [Function.comp_apply]
          by_cases hid : r.id = R0.id
          · simp [hid]
          · simp [hid]


/-! ## Helper lemmas: download -/

theorem mem_le_foldr_max (a : Nat) : ∀ l : List Nat, a ∈ l → a ≤ l.foldr max 0 := by
  intro l
  induction l with
  | nil => intro h; cases h
  | cons x xs ih =>
    intro h
    rcases List.mem_cons.mp h with h | h
    · rw [h, List.foldr_cons]
      exact Nat.le_max_left _ _
    · rw [List.foldr_cons]
      exact Nat.le_trans (ih h) (Nat.le_max_right _ _)

theorem foldr_max_le (m : Nat) : ∀ l : List Nat, (∀ a ∈ l, a ≤ m) → l.foldr max 0 ≤ m := by
  intro l
  induction l with
  | nil => intro _; exact Nat.zero_le m
  | cons x xs ih =>
    intro h
    rw [List.foldr_cons]
    exact Nat.max_le.mpr ⟨h x (List.mem_cons_self _ _), ih (fun a ha => h a (List.mem_cons_of_mem _ ha))⟩

/-- When the active rows cover exactly the indexes `0 .. N-1`, the
`GROUP BY chunk_index ORDER BY chunk_index` result is `range N`. -/
theorem distinctSortedIndices_range (rows : List ChunkRow) (N : Nat) (hN : 0 < N)
    (hub : ∀ r ∈ rows, r.chunk_index < N)
    (hcov : ∀ i, i < N → ∃ r ∈ rows, r.chunk_index = i) :
    distinctSortedIndices rows = List.range N := by
  unfold distinctSortedIndices
  have hmem : ∀ i, i ∈ rows.map (fun r => r.chunk_index) ↔ i < N := by
    intro i
    constructor
    · intro h
      rcases List.mem_map.mp h with ⟨r, hr, hreq⟩
      rw [← hreq]
      exact hub r hr
    · intro h
      rcases hcov i h with ⟨r, hr, hreq⟩
      exact List.mem_map.mpr ⟨r, hr, hreq⟩
  have hmax : (rows.map (fun r => r.chunk_index)).foldr max 0 = N - 1 := by
    apply Nat.le_antisymm
    · apply foldr_max_le
      intro a ha
      have := (hmem a).mp ha
      omega
    · apply mem_le_foldr_max
      exact (hmem (N - 1)).mpr (by omega)
  rw [hmax]
  have hone : N - 1 + 1 = N := by omega
  rw [hone]
  apply List.filter_eq_self.mpr
  intro i hi
  rw [List.mem_range] at hi
  exact decide_eq_true ((hmem i).mpr hi)

theorem fetchChunk_ok (c : Crypto) (hc : LawfulCrypto c) (d : Disk) (r : ChunkRow)
    (payload : Bytes)
    (hhash : r.chunk_hash = c.hash payload)
    (hsome : ∃ n : Node, d.read (n, r.chunk_location.2) = some payload) :
    fetchChunk c d r = Except.ok payload := by
  have hval : ∀ bs, c.hash bs = r.chunk_hash → bs = payload := by
    intro bs hbs
    apply hc.hash_inj
    rw [hbs, hhash]
  rcases hsome with ⟨n0, hn0⟩
  have hmem : n0 ∈ UPLOAD_FOLDERS := by cases n0 <;> simp [UPLOAD_FOLDERS]
  have hn0' : (match d.read (n0, r.chunk_location.2) with
      | some bs => if c.hash bs = r.chunk_hash then some bs else none
      | none => none) = some payload := by
    simp only [hn0]
    rw [if_pos (by rw [hhash])]
  have hfind : UPLOAD_FOLDERS.findSome? (fun n =>
      match d.read (n, r.chunk_location.2) with
      | some bs => if c.hash bs = r.chunk_hash then some bs else none
      | none => none) = some payload := by
    cases hfs : UPLOAD_FOLDERS.findSome? (fun n =>
        match d.read (n, r.chunk_location.2) with
        | some bs => if c.hash bs = r.chunk_hash then some bs else none
        | none => none) with
    | none =>
      exfalso
      have h2 : (match d.read (n0, r.chunk_location.2) with
          | some bs => if c.hash bs = r.chunk_hash then some bs else none
          | none => none) = none := List.findSome?_eq_none_iff.mp hfs n0 hmem
      cases hn0'.symm.trans h2
    | some v =>
      rcases List.exists_of_findSome?_eq_some hfs with ⟨n1, _, hn1⟩
      have h2 : (match d.read (n1, r.chunk_location.2) with
          | some bs => if c.hash bs = r.chunk_hash then some bs else none
          | none => none) = some v := hn1
      cases hrd1 : d.read (n1, r.chunk_location.2) with
      | none =>
        simp only [hrd1] at h2
        cases h2
      | some bs1 =>
        simp only [hrd1] at h2
        by_cases hh1 : c.hash bs1 = r.chunk_hash
        · rw [if_pos hh1] at h2
          have hbv : bs1 = v := by injection h2
          rw [← hbv, hval bs1 hh1]
        · rw [if_neg hh1] at h2
          cases h2
  unfold fetchChunk
  cases hrd : d.read r.chunk_location with
  | some bs =>
    by_cases hh : c.hash bs = r.chunk_hash
    · simp only [hrd, if_pos hh]
      rw [hval bs hh]
    · simp only [hrd, if_neg hh, hfind]
  | none =>
    simp only [hrd, hfind]

theorem gatherChunks_ok (c : Crypto) (hc : LawfulCrypto c)
    (pick : List ChunkRow → Option ChunkRow) (hp : GoodPick pick)
    (d : Disk) (rows : List ChunkRow) (f : String) (P : Nat → Bytes) :
    ∀ idxs : List Nat,
      (∀ i ∈ idxs, ∃ r ∈ rows, r.chunk_index = i) →
      (∀ r ∈ rows, r.chunk_hash = c.hash (P r.chunk_index) ∧
         r.chunk_location.2 = (f, r.chunk_index)) →
      (∀ i ∈ idxs, ∃ n : Node, d.read (n, (f, i)) = some (P i)) →
      gatherChunks c pick d rows idxs =
        Except.ok ((idxs.map (fun i => c.decodeChunk (P i))).flatten) := by
  intro idxs
  induction idxs with
  | nil => intro _ _ _; rfl
  | cons i rest ih =>
    intro hcov hprops hdisk
    simp only [gatherChunks]
    have hgrp : rows.filter (fun r => decide (r.chunk_index = i)) ≠ [] := by
      rcases hcov i (List.mem_cons_self _ _) with ⟨r, hr, hreq⟩
      intro hnil
      have : r ∈ rows.filter (fun r => decide (r.chunk_index = i)) :=
        List.mem_filter.mpr ⟨hr, decide_eq_true hreq⟩
      rw [hnil] at this
      cases this
    rcases hp _ hgrp with ⟨r, hpick, hrmem⟩
    have hrrows : r ∈ rows := (List.mem_filter.mp hrmem).1
    have hridx : r.chunk_index = i :=
      of_decide_eq_true (List.mem_filter.mp hrmem).2
    have hprop := hprops r hrrows
    have hfetch : fetchChunk c d r = Except.ok (P i) := by
      apply fetchChunk_ok c hc d r (P i)
      · rw [hprop.1, hridx]
      · rw [hprop.2, hridx]
        exact hdisk i (List.mem_cons_self _ _)
    simp only [hpick, hfetch,
      ih (fun j hj => hcov j (List.mem_cons_of_mem _ hj)) hprops
        (fun j hj => hdisk j (List.mem_cons_of_mem _ hj))]
    simp [List.flatten_cons]

theorem download_ok (c : Crypto) (hc : LawfulCrypto c)
    (pick : List ChunkRow → Option ChunkRow) (hp : GoodPick pick)
    (s : Sys) (f : String) (R : FileRow) (P : Nat → Bytes) (N : Nat)
    (hfind : findFileRow s.catalog f = some R)
    (hN : 0 < N)
    (hrows : ∀ r ∈ s.catalog.chunks,
       r.file_id = R.id → r.version_number = R.current_version →
       r.status = ChunkStatus.active →
       r.chunk_location.2 = (f, r.chunk_index) ∧
         r.chunk_hash = c.hash (P r.chunk_index) ∧ r.chunk_index < N)
    (hcov : ∀ i, i < N → ∃ r ∈ s.catalog.chunks,
       r.file_id = R.id ∧ r.version_number = R.current_version ∧
         r.status = ChunkStatus.active ∧ r.chunk_index = i)
    (hdisk : ∀ i, i < N → ∃ n : Node, s.disk.read (n, (f, i)) = some (P i)) :
    (download c pick s f none).1 =
      Except.ok (((List.range N).map (fun i => c.decodeChunk (P i))).flatten) := by
  unfold download
  rw [hfind]
  simp only
  have hsub : ∀ r ∈ s.catalog.chunks.filter (fun r =>
      decide (r.file_id = R.id ∧ r.version_number = R.current_version ∧
              r.status = ChunkStatus.active)),
      r.file_id = R.id ∧ r.version_number = R.current_version ∧
        r.status = ChunkStatus.active := by
    intro r hr
    exact of_decide_eq_true (List.mem_filter.mp hr).2
  have hsubmem : ∀ r ∈ s.catalog.chunks.filter (fun r =>
      decide (r.file_id = R.id ∧ r.version_number = R.current_version ∧
              r.status = ChunkStatus.active)), r ∈ s.catalog.chunks := by
    intro r hr
    exact (List.mem_filter.mp hr).1
  have hub : ∀ r ∈ s.catalog.chunks.filter (fun r =>
      decide (r.file_id = R.id ∧ r.version_number = R.current_version ∧
              r.status = ChunkStatus.active)), r.chunk_index < N := by
    intro r hr
    have h1 := hsub r hr
    exact (hrows r (hsubmem r hr) h1.1 h1.2.1 h1.2.2).2.2
  have hcov2 : ∀ i, i < N → ∃ r ∈ s.catalog.chunks.filter (fun r =>
      decide (r.file_id = R.id ∧ r.version_number = R.current_version ∧
              r.status = ChunkStatus.active)), r.chunk_index = i := by
    intro i hi
    rcases hcov i hi with ⟨r, hr, h1, h2, h3, h4⟩
    exact ⟨r, List.mem_filter.mpr ⟨hr, decide_eq_true ⟨h1, h2, h3⟩⟩, h4⟩
  have hdsi := distinctSortedIndices_range _ N hN hub hcov2
  rw [hdsi]
  cases hR : List.range N with
  | nil =>
    exfalso
    have : N = 0 := by
      have := List.range_eq_nil.mp hR
      exact this
    omega
  | cons i rest =>
    simp only
    have hgather := gatherChunks_ok c hc pick hp s.disk
      (s.catalog.chunks.filter (fun r =>
        decide (r.file_id = R.id ∧ r.version_number = R.current_version ∧
                r.status = ChunkStatus.active))) f P (i :: rest)
      (by
        intro j hj
        apply hcov2
        rw [← List.mem_range, hR]
        exact hj)
      (by
        intro r hr
        have h1 := hsub r hr
        have := hrows r (hsubmem r hr) h1.1 h1.2.1 h1.2.2
        exact ⟨this.2.1, this.1⟩)
      (by
        intro j hj
        apply hdisk
        rw [← List.mem_range, hR]
        exact hj)
    rw [hgather, ← hR]

/-! ## Helper lemmas: assembling states -/

theorem find_fresh_append (olds : List FileRow) (R : FileRow) (f : String)
    (hf : ∀ r ∈ olds, ¬ r.filename = f) (hR : R.filename = f) :
    (olds ++ [R]).find? (fun r => decide (r.filename = f)) = some R := by
  induction olds with
  | nil =>
    simp [List.find?, hR]
  | cons x xs ih =>
    rw [List.cons_append,
        List.find?_cons_of_neg _ (by
          simp only [decide_eq_true_eq]
          exact hf x (List.mem_cons_self _ _))]
    exact ih (fun r hr => hf r (List.mem_cons_of_mem _ hr))

theorem map_range_eq (ps : List Bytes) (g : Nat → Bytes)
    (h : ∀ i ch, ps.get? i = some ch → g i = ch) :
    (List.range ps.length).map g = ps := by
  induction ps generalizing g with
  | nil => rfl
  | cons x xs ih =>
    rw [List.length_cons, List.range_succ_eq_map, List.map_cons, List.map_map]
    congr 1
    · exact h 0 x rfl
    · exact ih (g ∘ Nat.succ) (fun i ch hch => h (i + 1) ch hch)

theorem upload_isOk_exists (c : Crypto) (now : Int) (s : Sys) (f : String)
    (data : Bytes) (h : (upload c now s f data).isOk = true) :
    ∃ s', upload c now s f data = Except.ok s' := by
  cases hu : upload c now s f data with
  | error e => rw [hu] at h; cases h
  | ok s' => exact ⟨s', rfl⟩

theorem okState_ok (s' fallback : Sys) : okState (Except.ok s') fallback = s' := rfl

/-- The decoded payloads of an upload, in index order, flatten back to the
uploaded bytes. -/
theorem decode_payloads_eq (c : Crypto) (hc : LawfulCrypto c) (data : Bytes) :
    ((List.range (uploadNumChunks data)).map
      (fun i => c.decodeChunk (uploadPayload c data i))).flatten = data := by
  have hmap : (List.range (uploadNumChunks data)).map
      (fun i => c.decodeChunk (uploadPayload c data i)) = chunksOf CHUNK_SIZE data := by
    apply map_range_eq
    intro i ch hch
    unfold uploadPayload
    rw [hch]
    exact hc.decode_encode ch
  rw [hmap]
  exact chunksOf_flatten CHUNK_SIZE (by unfold CHUNK_SIZE; omega) data

/-! ## Claim theorems -/

/-- C1 (amended to nonempty files): a file uploaded under a fresh name and
then downloaded without a version parameter comes back byte-identical:
split, compress-then-encrypt, place and replicate on write are inverted by
gather, decrypt, decompress and concatenate on read. -/
theorem upload_download_roundtrip_nonempty
    (c : Crypto) (hc : LawfulCrypto c)
    (pick : List ChunkRow → Option ChunkRow) (hp : GoodPick pick)
    (now : Int) (s : Sys) (f : String) (data : Bytes)
    (hw : WFSys s) (hf : FreshFile s f) (hd : ¬ data = [])
    (hok : (upload c now s f data).isOk = true) :
    (download c pick (okState (upload c now s f data) s) f none).1 =
      Except.ok data := by
  rcases upload_isOk_exists c now s f data hok with ⟨s', hu⟩
  rw [hu]
  show (download c pick s' f none).1 = Except.ok data
  rcases upload_spec c now s f data s' hw.meta_lt hu with
    ⟨_, _, ⟨rows, hchunks, hrowp, hrowcov⟩, _, hfreshmeta, _⟩
  have hfind0 : findFileRow s.catalog f = none := by
    unfold findFileRow
    rw [List.find?_eq_none]
    intro r hr
    simpa using hf r hr
  rcases hfreshmeta hfind0 with ⟨R, hmeta, hRid, hRname, hRcv, _⟩
  have hfid : uploadFileId s f = s.nextFileId := by
    unfold uploadFileId
    rw [hfind0]
  have hnv : uploadNewVersion s f = 1 := by
    unfold uploadNewVersion
    rw [hfind0]
  have hfind : findFileRow s'.catalog f = some R := by
    unfold findFileRow
    rw [hmeta]
    exact find_fresh_append _ _ _ (fun r hr => hf r hr) hRname
  have hNpos : 0 < uploadNumChunks data := by
    unfold uploadNumChunks
    have := chunksOf_ne_nil CHUNK_SIZE data hd
    cases hchunks0 : chunksOf CHUNK_SIZE data with
    | nil => exact absurd hchunks0 this
    | cons a l => simp
  have hdl := download_ok c hc pick hp s' f R (uploadPayload c data)
    (uploadNumChunks data) hfind hNpos
    (by
      intro r hr hfid2 hver2 hst2
      rw [hchunks] at hr
      rcases List.mem_append.mp hr with hr | hr
      · exfalso
        have := hw.chunks_lt r hr
        rw [hfid2, hRid] at this
        omega
      · have := hrowp r hr
        exact ⟨this.2.2.2.1, this.2.2.2.2.1, this.2.2.2.2.2.2⟩)
    (by
      intro i hi
      rcases hrowcov i hi with ⟨r, hr, hri⟩
      have hp2 := hrowp r hr
      refine ⟨r, by rw [hchunks]; exact List.mem_append_right _ hr, ?_, ?_, ?_, hri⟩
      · rw [hp2.1, hfid, hRid]
      · rw [hp2.2.1, hnv, hRcv]
      · exact hp2.2.2.1)
    (by
      intro i hi
      rcases hrowcov i hi with ⟨r, hr, hri⟩
      have hp2 := hrowp r hr
      refine ⟨r.chunk_location.1, ?_⟩
      have hloc : (r.chunk_location.1, (f, i)) = r.chunk_location := by
        have := hp2.2.2.2.1
        rw [← hri, ← this]
      rw [hloc, hp2.2.2.2.2.2.1, hri])
  rw [hdl]
  rw [decode_payloads_eq c hc data]

theorem pickHead_good : GoodPick pickHead := by
  intro g hg
  cases g with
  | nil => exact absurd rfl hg
  | cons r rest => exact ⟨r, rfl, List.mem_cons_self _ _⟩

theorem upload_download_roundtrip_nonempty_witness :
    (download idCrypto pickHead (okState (upload idCrypto 0 initSys "f" [0]) initSys)
        "f" none).1 = Except.ok [0] :=
  upload_download_roundtrip_nonempty idCrypto idCrypto_lawful pickHead pickHead_good
    0 initSys "f" [0]
    ⟨fun r hr => absurd hr (List.not_mem_nil r),
     fun r hr => absurd hr (List.not_mem_nil r),
     fun v hv => absurd hv (List.not_mem_nil v)⟩
    (fun r hr => absurd hr (List.not_mem_nil r))
    (by decide) (by decide)

/-- C1, counterexample to the claim as stated: uploading an EMPTY file
succeeds (200, version 1, no chunk rows), but the download then returns
the 404 error `No chunks found for the file` instead of the file's
(empty) bytes. -/
theorem empty_file_roundtrip_fails :
    (upload idCrypto 0 initSys "f" []).isOk = true ∧
    (download idCrypto pickHead (okState (upload idCrypto 0 initSys "f" []) initSys)
        "f" none).1 =
      Except.error (DlErr.notFound "No chunks found for the file") := by
  constructor <;> decide

/-- C2: after two uploads of the same filename, a download with
`?version=1` (the version exists) does not return the version-1 bytes:
the handler reads `result['current_version']` from a row that has only
`(id, version_number)` columns, `sqlite3.Row` raises, and the request
fails with a 500 — for every versioned download. -/
theorem versioned_download_keyerror :
    ((upload idCrypto 0 initSys "f" [0]).bind
        (fun s1 => upload idCrypto 0 s1 "f" [1])).map
      (fun s2 => (download idCrypto pickHead s2 "f" (some 1)).1) =
    Except.ok (Except.error (DlErr.internal "No item with that key")) := by
  decide

/-- C4: after uploading `f` and re-uploading it with different content,
the version-1 chunk rows are still `active` (upload never deprecates the
previous version) while the on-disk chunk file they reference has been
overwritten with the version-2 payload; the P3 integrity invariant fails
and the verify endpoint reports a corrupted chunk on an undamaged store. -/
theorem reupload_breaks_chunk_integrity :
    ((upload idCrypto 0 initSys "f" [0]).bind
        (fun s1 => upload idCrypto 0 s1 "f" [1])).map
      (fun s2 => ((verifyNode idCrypto s2 Node.node1).corrupted.isEmpty,
                  (integrityViolations idCrypto s2).isEmpty)) =
    Except.ok (false, false) := by
  decide

/-- C5: `upload_file` never writes `metadata.content_hash` (the INSERT at
server.py:1532-1541 and UPDATE at server.py:1544-1553 list no such
column), so the dedup pass's `WHERE content_hash IS NOT NULL` grouping
matches nothing; moreover nothing ever INSERTs into `deduplication`, so
its UPDATE could not create the claimed row either.  After uploading the
same bytes under two filenames and running deduplication, both
`deduplication_ref`s are NULL, the deduplication table is empty, and the
state is unchanged. -/
theorem dedup_never_links_duplicates :
    ((upload idCrypto 0 initSys "a" [7]).bind
        (fun s1 => upload idCrypto 0 s1 "b" [7])).map
      (fun s2 =>
        ((manageDeduplication s2).catalog.metadata.map (fun r => r.deduplication_ref),
         (manageDeduplication s2).catalog.deduplication.length,
         decide (manageDeduplication s2 = s2))) =
    Except.ok ([none, none], 0, true) := by
  decide

/-- C6: moving a file to another tier updates `metadata.storage_tier` but
re-encodes no chunk: the per-chunk call passes `compression_level=` to
`encrypt_and_compress_data`, whose signature has no such parameter
(server.py:1244 vs server.py:145-148), so every iteration raises
TypeError, is caught and logged, and the disk is left bit-for-bit
unchanged. -/
theorem tier_migration_skips_reencode :
    (upload idCrypto 0 initSys "f" [0]).map
      (fun s1 =>
        (storageTierOf (moveToStorageTier s1 1 "warm") "f",
         decide ((moveToStorageTier s1 1 "warm").disk = s1.disk))) =
    Except.ok (some "warm", true) := by
  decide

/-- C7: `select_storage_node` is exactly the claimed selection: the
candidate set is the non-excluded nodes with available space
(500 MiB capacity minus the size of the regular files in the node's
directory) at least the chunk size; when it is empty the function fails
with the `No suitable nodes available for storage` error; otherwise it
returns a candidate of minimal used space — minimal usage fraction, since
every node divides by the same capacity — and, among equally-used
candidates, the first in the fixed node ordering. -/
theorem select_storage_node_spec (S : Nat) (E : List Node) (d : Disk) :
    (selectCandidates S E d = [] →
       selectStorageNode S E d =
         Except.error "No suitable nodes available for storage") ∧
    (∀ n, selectStorageNode S E d = Except.ok n →
       n ∈ UPLOAD_FOLDERS ∧ ¬ n ∈ E ∧ (S : Int) ≤ availableSpace d n ∧
       (∀ m ∈ selectCandidates S E d, usedSpace d n ≤ usedSpace d m) ∧
       (selectCandidates S E d).find?
         (fun m => decide (usedSpace d m ≤ usedSpace d n)) = some n) ∧
    (¬ selectCandidates S E d = [] → (selectStorageNode S E d).isOk = true) := by
  refine ⟨?_, ?_, ?_⟩
  · intro hnil
    unfold selectStorageNode
    rw [hnil]
    rfl
  · intro n hn
    have hmem := selectStorageNode_mem S E d n hn
    have hspec := (selectCandidates_spec S E d n).mp hmem
    refine ⟨hspec.1, hspec.2.1, hspec.2.2, ?_, ?_⟩
    · intro m hm
      unfold selectStorageNode at hn
      cases hc : selectCandidates S E d with
      | nil => rw [hc] at hm; cases hm
      | cons m0 rest =>
        rw [hc] at hn hm
        simp only [pickMinUsed, Except.ok.injEq] at hn
        rcases List.mem_cons.mp hm with hm | hm
        · rw [← hn, hm]
          exact (foldl_min_le d m0 rest).1
        · rw [← hn]
          exact (foldl_min_le d m0 rest).2 m hm
    · unfold selectStorageNode at hn
      cases hc : selectCandidates S E d with
      | nil => rw [hc] at hn; cases hn
      | cons m0 rest =>
        rw [hc] at hn
        simp only [pickMinUsed, Except.ok.injEq] at hn
        rw [← hn]
        exact foldl_min_first d m0 rest
  · intro hne
    unfold selectStorageNode
    cases hc : selectCandidates S E d with
    | nil => exact absurd hc hne
    | cons m0 rest => rfl

theorem select_storage_node_spec_witness :
    Node.node1 ∈ UPLOAD_FOLDERS ∧ ¬ Node.node1 ∈ ([] : List Node) ∧
    ((1 : Nat) : Int) ≤ availableSpace emptyDisk Node.node1 ∧
    (∀ m ∈ selectCandidates 1 [] emptyDisk,
       usedSpace emptyDisk Node.node1 ≤ usedSpace emptyDisk m) ∧
    (selectCandidates 1 [] emptyDisk).find?
      (fun m => decide (usedSpace emptyDisk m ≤ usedSpace emptyDisk Node.node1)) =
      some Node.node1 :=
  (select_storage_node_spec 1 [] emptyDisk).2.1 Node.node1 (by decide)

/-! ## C8: version monotonicity -/

/-- Invariant of repeated uploads of one filename: the catalog holds the
untouched pre-existing rows plus one row for the file, whose
`current_version` equals the number of uploads so far, which also equals
the number of its `versions` rows; ids stay below the AUTOINCREMENT
counter. -/
def SeqInv (olds : List FileRow) (fid : Nat) (f : String) (k : Nat) (s : Sys) : Prop :=
  (∃ R : FileRow, s.catalog.metadata = olds ++ [R] ∧ R.filename = f ∧ R.id = fid ∧
     R.current_version = k) ∧
  (s.catalog.versions.filter (fun v => decide (v.file_id = fid))).length = k ∧
  (∀ r ∈ s.catalog.metadata, r.id < s.nextFileId)

theorem uploadSeq_step (c : Crypto) (now : Int) (olds : List FileRow)
    (fid : Nat) (f : String) (k : Nat) (s s' : Sys) (b : Bytes)
    (holds1 : ∀ r ∈ olds, ¬ r.filename = f)
    (holds2 : ∀ r ∈ olds, r.id < fid)
    (hinv : SeqInv olds fid f k s)
    (hu : upload c now s f b = Except.ok s') :
    SeqInv olds fid f (k + 1) s' := by
  rcases hinv with ⟨⟨R, hmeta, hRname, hRid, hRcv⟩, hvers, hids⟩
  have hfind : findFileRow s.catalog f = some R := by
    unfold findFileRow
    rw [hmeta]
    exact find_fresh_append _ _ _ holds1 hRname
  rcases upload_spec c now s f b s' hids hu with
    ⟨_, _, _, ⟨tc, hvers'⟩, _, hold⟩
  rcases hold R hfind with ⟨loc0, reps, tc2, hmeta', hnfid⟩
  refine ⟨?_, ?_, ?_⟩
  · refine ⟨{ R with
        current_version := R.current_version + 1
        size := b.length
        compressed_size := tc2
        upload_timestamp := now
        location := loc0
        replicas := reps }, ?_, hRname, hRid, by rw [hRcv]⟩
    rw [hmeta', hmeta]
    rw [List.map_append]
    congr 1
    · apply (List.map_congr_left ?_).trans (List.map_id _)
      intro r hr
      have hne : ¬ r.id = R.id := by
        intro hc
        have := holds2 r hr
        rw [hc, hRid] at this
        omega
      rw [if_neg hne]
      rfl
    · simp
  · rw [hvers', List.filter_append]
    have hfid : uploadFileId s f = fid := by
      unfold uploadFileId
      simp only [hfind]
      exact hRid
    rw [List.length_append, hvers]
    simp [hfid]
  · intro r hr
    rw [hmeta'] at hr
    rcases List.mem_map.mp hr with ⟨r0, hr0, hreq⟩
    have := hids r0 hr0
    rw [hnfid, ← hreq]
    by_cases hc : r0.id = R.id
    · simpa [hc] using this
    · simpa [hc] using this

theorem uploadSeq_base (c : Crypto) (now : Int) (s : Sys) (f : String)
    (b : Bytes) (s' : Sys)
    (hw : WFSys s) (hf : FreshFile s f)
    (hu : upload c now s f b = Except.ok s') :
    SeqInv s.catalog.metadata s.nextFileId f 1 s' := by
  have hfind0 : findFileRow s.catalog f = none := by
    unfold findFileRow
    rw [List.find?_eq_none]
    intro r hr
    simpa using hf r hr
  rcases upload_spec c now s f b s' hw.meta_lt hu with
    ⟨_, _, _, ⟨tc, hvers'⟩, hfresh, _⟩
  rcases hfresh hfind0 with ⟨R, hmeta, hRid, hRname, hRcv, hnfid⟩
  refine ⟨⟨R, hmeta, hRname, hRid, hRcv⟩, ?_, ?_⟩
  · rw [hvers', List.filter_append]
    have hfid : uploadFileId s f = s.nextFileId := by
      unfold uploadFileId
      rw [hfind0]
    have hnilold : s.catalog.versions.filter
        (fun v => decide (v.file_id = s.nextFileId)) = [] := by
      apply List.filter_eq_nil.mpr
      intro v hv
      simp only [decide_eq_true_eq]
      have := hw.versions_lt v hv
      omega
    rw [List.length_append, hnilold]
    simp [hfid]
  · intro r hr
    rw [hmeta] at hr
    rcases List.mem_append.mp hr with hr | hr
    · have := hw.meta_lt r hr
      omega
    · rcases List.mem_singleton.mp hr with rfl
      omega

theorem uploadSeq_inv (c : Crypto) (now : Int) (olds : List FileRow)
    (fid : Nat) (f : String)
    (holds1 : ∀ r ∈ olds, ¬ r.filename = f)
    (holds2 : ∀ r ∈ olds, r.id < fid) :
    ∀ (bs : List Bytes) (k : Nat) (s s' : Sys), SeqInv olds fid f k s →
      uploadSeq c now s f bs = Except.ok s' → SeqInv olds fid f (k + bs.length) s' := by
  intro bs
  induction bs with
  | nil =>
    intro k s s' hinv h
    simp only [uploadSeq, Except.ok.injEq] at h
    rw [← h]
    simpa using hinv
  | cons b rest ih =>
    intro k s s' hinv h
    simp only [uploadSeq] at h
    cases hu : upload c now s f b with
    | error e => rw [hu] at h; cases h
    | ok s1 =>
      rw [hu] at h
      have hstep := uploadSeq_step c now olds fid f k s s1 b holds1 holds2 hinv hu
      have := ih (k + 1) s1 s' hstep h
      simpa [Nat.add_assoc, Nat.add_comm 1 rest.length] using this

/-- C8: starting from a catalog with no file of this name, N successful
sequential uploads of the filename leave `metadata.current_version = N`
and exactly N `versions` rows for the file; the first upload creates the
file at version 1 and each later upload adds exactly one. -/
theorem version_monotonicity (c : Crypto) (now : Int) (s : Sys) (f : String)
    (bs : List Bytes)
    (hw : WFSys s) (hf : FreshFile s f) (hbs : ¬ bs = [])
    (hok : (uploadSeq c now s f bs).isOk = true) :
    currentVersionOf (okState (uploadSeq c now s f bs) s) f = some bs.length ∧
    ∃ fid, fileIdOf (okState (uploadSeq c now s f bs) s) f = some fid ∧
      ((okState (uploadSeq c now s f bs) s).catalog.versions.filter
        (fun v => decide (v.file_id = fid))).length = bs.length := by
  cases bs with
  | nil => exact absurd rfl hbs
  | cons b rest =>
    obtain ⟨s', hs'⟩ : ∃ s', uploadSeq c now s f (b :: rest) = Except.ok s' := by
      cases hr : uploadSeq c now s f (b :: rest) with
      | error e => rw [hr] at hok; cases hok
      | ok s' => exact ⟨s', rfl⟩
    rw [hs', okState_ok]
    have hstep1 : ∃ s1, upload c now s f b = Except.ok s1 ∧
        uploadSeq c now s1 f rest = Except.ok s' := by
      simp only [uploadSeq] at hs'
      cases hu : upload c now s f b with
      | error e => rw [hu] at hs'; cases hs'
      | ok s1 => rw [hu] at hs'; exact ⟨s1, rfl, hs'⟩
    rcases hstep1 with ⟨s1, hu1, hrest⟩
    have hbase := uploadSeq_base c now s f b s1 hw hf hu1
    have holds1 : ∀ r ∈ s.catalog.metadata, ¬ r.filename = f := fun r hr => hf r hr
    have holds2 : ∀ r ∈ s.catalog.metadata, r.id < s.nextFileId := hw.meta_lt
    have hinv := uploadSeq_inv c now s.catalog.metadata s.nextFileId f holds1 holds2
      rest 1 s1 s' hbase hrest
    rcases hinv with ⟨⟨R, hmeta, hRname, hRid, hRcv⟩, hvers, _⟩
    have hfind : findFileRow s'.catalog f = some R := by
      unfold findFileRow
      rw [hmeta]
      exact find_fresh_append _ _ _ holds1 hRname
    refine ⟨?_, s.nextFileId, ?_, ?_⟩
    · unfold currentVersionOf
      rw [hfind]
      simp [hRcv, Nat.add_comm]
    · unfold fileIdOf
      rw [hfind]
      simp [hRid]
    · rw [hvers]
      simp [Nat.add_comm]

/-! ## C9: heartbeat failover -/

theorem node_name_inj : ∀ a b : Node, a.name = b.name → a = b := by
  intro a b h
  cases a <;> cases b <;> first | rfl | exact absurd h (by decide)

theorem redistributeGo_spec (X : String) (d : Disk) (r : ChunkRow)
    (hsrc : (d.read r.chunk_location).isSome) :
    ∀ ts : List Node, (∃ t ∈ ts, ¬ t.name = X) →
      ¬ (redistributeGo X d r ts).1.chunk_location.1.name = X ∧
      (redistributeGo X d r ts).1.chunk_location.2 = r.chunk_location.2 ∧
      (redistributeGo X d r ts).1.id = r.id ∧
      (∀ l, (d.read l).isSome → (redistributeGo X d r ts).2.read l = d.read l) := by
  intro ts
  induction ts with
  | nil =>
    intro h
    rcases h with ⟨t, ht, _⟩
    cases ht
  | cons t rest ih =>
    intro hex
    simp only [redistributeGo]
    by_cases ht : t.name = X
    · rw [if_pos ht]
      apply ih
      rcases hex with ⟨t2, ht2, hne⟩
      rcases List.mem_cons.mp ht2 with h | h
      · rw [h] at hne; exact absurd ht hne
      · exact ⟨t2, h, hne⟩
    · rw [if_neg ht]
      cases hrd : d.read (t, r.chunk_location.2) with
      | some bs =>
        simp only
        exact ⟨ht, trivial, trivial, fun l _ => trivial⟩
      | none =>
        simp only
        cases hsrcv : d.read r.chunk_location with
        | none => rw [hsrcv] at hsrc; cases hsrc
        | some bs =>
          simp only
          refine ⟨ht, trivial, trivial, ?_⟩
          intro l hl
          apply Disk.read_write_other
          intro hc
          rw [hc, hrd] at hl
          cases hl

theorem redistributeRow_spec (X : String) (d : Disk) (r : ChunkRow)
    (hsrc : (d.read r.chunk_location).isSome)
    (hX : r.chunk_location.1.name = X) :
    ¬ (redistributeRow X d r).1.chunk_location.1.name = X ∧
    (redistributeRow X d r).1.chunk_location.2 = r.chunk_location.2 ∧
    (redistributeRow X d r).1.id = r.id ∧
    (∀ l, (d.read l).isSome → (redistributeRow X d r).2.read l = d.read l) := by
  apply redistributeGo_spec X d r hsrc
  cases hn : r.chunk_location.1 with
  | node1 =>
    refine ⟨Node.node2, by decide, ?_⟩
    rw [← hX, hn]
    decide
  | node2 =>
    refine ⟨Node.node1, by decide, ?_⟩
    rw [← hX, hn]
    decide
  | node3 =>
    refine ⟨Node.node1, by decide, ?_⟩
    rw [← hX, hn]
    decide

theorem redistribute_fold (X : String) :
    ∀ (ts : List ChunkRow) (rows : List ChunkRow) (d : Disk),
      (∀ t ∈ ts, t.chunk_location.1.name = X) →
      (∀ t ∈ ts, (d.read t.chunk_location).isSome) →
      ((ts.map (fun t => t.id)).Nodup) →
      (∀ l, (d.read l).isSome →
         (ts.foldl (fun (st : List ChunkRow × Disk) (r : ChunkRow) =>
            ((st.1.map (fun x => if x.id = r.id then
                { x with chunk_location := (redistributeRow X st.2 r).1.chunk_location }
              else x)), (redistributeRow X st.2 r).2)) (rows, d)).2.read l = d.read l) ∧
      (∀ x ∈ rows, (∀ t ∈ ts, ¬ t.id = x.id) →
         x ∈ (ts.foldl (fun (st : List ChunkRow × Disk) (r : ChunkRow) =>
            ((st.1.map (fun x => if x.id = r.id then
                { x with chunk_location := (redistributeRow X st.2 r).1.chunk_location }
              else x)), (redistributeRow X st.2 r).2)) (rows, d)).1) ∧
      (∀ t ∈ ts, ∀ x ∈ rows, x.id = t.id →
         ∃ x2 ∈ (ts.foldl (fun (st : List ChunkRow × Disk) (r : ChunkRow) =>
            ((st.1.map (fun x => if x.id = r.id then
                { x with chunk_location := (redistributeRow X st.2 r).1.chunk_location }
              else x)), (redistributeRow X st.2 r).2)) (rows, d)).1,
           x2.id = t.id ∧ ¬ x2.chunk_location.1.name = X ∧
           x2.chunk_location.2 = t.chunk_location.2) := by
  intro ts
  induction ts with
  | nil =>
    intro rows d _ _ _
    refine ⟨fun l _ => rfl, fun x hx _ => hx, fun t ht => absurd ht (List.not_mem_nil t)⟩
  | cons t rest ih =>
    intro rows d hX hsrc hnd
    have hsrct := hsrc t (List.mem_cons_self _ _)
    have hXt := hX t (List.mem_cons_self _ _)
    rcases redistributeRow_spec X d t hsrct hXt with ⟨hmoved, hbn, _, hpres⟩
    simp only [List.foldl_cons]
    have hndrest : ((rest.map (fun t => t.id)).Nodup) := by
      simp only [List.map_cons] at hnd
      exact hnd.of_cons
    have htidrest : ∀ t2 ∈ rest, ¬ t2.id = t.id := by
      simp only [List.map_cons, List.nodup_cons] at hnd
      intro t2 ht2 hc
      exact hnd.1 (List.mem_map.mpr ⟨t2, ht2, hc⟩)
    have hsrcrest : ∀ t2 ∈ rest, ((redistributeRow X d t).2.read t2.chunk_location).isSome := by
      intro t2 ht2
      rw [hpres _ (hsrc t2 (List.mem_cons_of_mem _ ht2))]
      exact hsrc t2 (List.mem_cons_of_mem _ ht2)
    rcases ih (rows.map (fun x => if x.id = t.id then
        { x with chunk_location := (redistributeRow X d t).1.chunk_location } else x))
        (redistributeRow X d t).2
        (fun t2 ht2 => hX t2 (List.mem_cons_of_mem _ ht2)) hsrcrest hndrest with
      ⟨ipres, ikeep, imoved⟩
    refine ⟨?_, ?_, ?_⟩
    · intro l hl
      rw [ipres l (by rw [hpres l hl]; exact hl), hpres l hl]
    · intro x hx hnone
      have hxid : ¬ x.id = t.id := by
        intro hc
        exact hnone t (List.mem_cons_self _ _) (by rw [hc])
      have hx1 : x ∈ rows.map (fun x => if x.id = t.id then
          { x with chunk_location := (redistributeRow X d t).1.chunk_location } else x) := by
        have hm := List.mem_map_of_mem (fun x : ChunkRow => if x.id = t.id then
          { x with chunk_location := (redistributeRow X d t).1.chunk_location } else x) hx
        simp only [if_neg hxid] at hm
        exact hm
      exact ikeep x hx1 (fun t2 ht2 => hnone t2 (List.mem_cons_of_mem _ ht2))
    · intro t2 ht2 x hx hxid
      rcases List.mem_cons.mp ht2 with ht2 | ht2
      · rw [ht2] at hxid ⊢
        have hx1 : { x with chunk_location := (redistributeRow X d t).1.chunk_location } ∈
            rows.map (fun x => if x.id = t.id then
              { x with chunk_location := (redistributeRow X d t).1.chunk_location } else x) := by
          have hm := List.mem_map_of_mem (fun x : ChunkRow => if x.id = t.id then
            { x with chunk_location := (redistributeRow X d t).1.chunk_location } else x) hx
          simp only [if_pos hxid] at hm
          exact hm
        have hfinal := ikeep _ hx1 (by
          intro t3 ht3
          simp only
          rw [hxid]
          exact htidrest t3 ht3)
        refine ⟨_, hfinal, by simpa using hxid, by simpa using hmoved, by simpa using hbn⟩
      · have hxid2 : ¬ x.id = t.id := by
          rw [hxid]
          exact htidrest t2 ht2
        have hx1 : x ∈ rows.map (fun x => if x.id = t.id then
            { x with chunk_location := (redistributeRow X d t).1.chunk_location } else x) := by
          have hm := List.mem_map_of_mem (fun x : ChunkRow => if x.id = t.id then
            { x with chunk_location := (redistributeRow X d t).1.chunk_location } else x) hx
          simp only [if_neg hxid2] at hm
          exact hm
        exact imoved t2 ht2 x hx1 hxid

theorem redistributeChunks_spec (X : String) (s : Sys)
    (hids : (s.catalog.chunks.map (fun r => r.id)).Nodup)
    (hsrc : ∀ r ∈ s.catalog.chunks, r.chunk_location.1.name = X →
       (s.disk.read r.chunk_location).isSome) :
    (∀ r ∈ s.catalog.chunks, r.chunk_location.1.name = X →
       ∃ r2 ∈ (redistributeChunks X s).catalog.chunks, r2.id = r.id ∧
         ¬ r2.chunk_location.1.name = X ∧
         r2.chunk_location.2 = r.chunk_location.2) ∧
    (∀ r ∈ s.catalog.chunks, ¬ r.chunk_location.1.name = X →
       r ∈ (redistributeChunks X s).catalog.chunks) := by
  have htargets : ∀ t ∈ s.catalog.chunks.filter (fun r =>
      decide (r.chunk_location.1.name = X)), t.chunk_location.1.name = X :=
    fun t ht => of_decide_eq_true (List.mem_filter.mp ht).2
  have htsrc : ∀ t ∈ s.catalog.chunks.filter (fun r =>
      decide (r.chunk_location.1.name = X)), (s.disk.read t.chunk_location).isSome :=
    fun t ht => hsrc t (List.mem_filter.mp ht).1 (htargets t ht)
  have hsub : List.Sublist (s.catalog.chunks.filter (fun r =>
      decide (r.chunk_location.1.name = X))) s.catalog.chunks :=
    List.filter_sublist _
  have htnd : ((s.catalog.chunks.filter (fun r =>
      decide (r.chunk_location.1.name = X))).map (fun t => t.id)).Nodup :=
    List.Nodup.sublist (List.Sublist.map (fun t => t.id) hsub) hids
  rcases redistribute_fold X (s.catalog.chunks.filter (fun r =>
      decide (r.chunk_location.1.name = X))) s.catalog.chunks s.disk
      htargets htsrc htnd with ⟨fpres, fkeep, fmoved⟩
  constructor
  · intro r hr hX
    have hrt : r ∈ s.catalog.chunks.filter (fun r =>
        decide (r.chunk_location.1.name = X)) :=
      List.mem_filter.mpr ⟨hr, decide_eq_true hX⟩
    rcases fmoved r hrt r hr rfl with ⟨x2, hx2, hid, hnX, hbn⟩
    exact ⟨x2, hx2, hid, hnX, hbn⟩
  · intro r hr hnX
    apply fkeep r hr
    intro t ht hc
    have ht1 : t ∈ s.catalog.chunks := (List.mem_filter.mp ht).1
    have := List.inj_on_of_nodup_map hids ht1 hr hc
    rw [this] at ht
    exact hnX (htargets r ht)

theorem inactiveNodes_single (now : Int) (X : String) (tX : Int) :
    ∀ hb : HeartbeatMap, (X, tX) ∈ hb →
      HEARTBEAT_THRESHOLD < now - tX →
      (∀ p ∈ hb, ¬ p.1 = X → ¬ HEARTBEAT_THRESHOLD < now - p.2) →
      (hb.map (fun p => p.1)).Nodup →
      inactiveNodes now hb = [X] := by
  intro hb
  induction hb with
  | nil => intro hmem; cases hmem
  | cons p rest ih =>
    intro hmem hexp hothers hnd
    by_cases hpX : p.1 = X
    · have hpeq : p = (X, tX) := by
        rcases List.mem_cons.mp hmem with h | h
        · exact h.symm
        · exfalso
          simp only [List.map_cons, List.nodup_cons] at hnd
          exact hnd.1 (by
            rw [hpX]
            exact List.mem_map.mpr ⟨(X, tX), h, rfl⟩)
      unfold inactiveNodes
      rw [List.filter_cons_of_pos (by
        rw [hpeq]
        exact decide_eq_true hexp)]
      have hrest : rest.filter (fun q => decide (HEARTBEAT_THRESHOLD < now - q.2)) = [] := by
        apply List.filter_eq_nil_iff.mpr
        intro q hq
        simp only [decide_eq_true_eq]
        apply hothers q (List.mem_cons_of_mem _ hq)
        intro hc
        simp only [List.map_cons, List.nodup_cons] at hnd
        exact hnd.1 (by
          rw [hpX]
          exact List.mem_map.mpr ⟨q, hq, hc⟩)
      rw [hrest, hpeq]
      rfl
    · have hmem2 : (X, tX) ∈ rest := by
        rcases List.mem_cons.mp hmem with h | h
        · exact absurd (by rw [← h]) hpX
        · exact h
      unfold inactiveNodes
      rw [List.filter_cons_of_neg (by
        simp only [decide_eq_true_eq]
        exact hothers p (List.mem_cons_self _ _) hpX)]
      have := ih hmem2 hexp (fun q hq => hothers q (List.mem_cons_of_mem _ hq))
        (by simp only [List.map_cons, List.nodup_cons] at hnd; exact hnd.2)
      unfold inactiveNodes at this
      exact this

/-- C9: one pass of the monitor loop over a node X whose last heartbeat is
older than the 40-second threshold (the other tracked nodes being live):
X is classified inactive, failure handling runs and rewrites every chunk
row whose location lies under X's directory to a path on another node —
pointing at an already-present copy when one exists, otherwise copying
the bytes — and X is removed from the live heartbeat map.  Rows on other
nodes are untouched. -/
theorem heartbeat_failover (now : Int) (hb : HeartbeatMap) (s : Sys)
    (X : Node) (tX : Int)
    (hmem : (X.name, tX) ∈ hb)
    (hexp : HEARTBEAT_THRESHOLD < now - tX)
    (hothers : ∀ p ∈ hb, ¬ p.1 = X.name → ¬ HEARTBEAT_THRESHOLD < now - p.2)
    (hnd : (hb.map (fun p => p.1)).Nodup)
    (hcid : (s.catalog.chunks.map (fun r => r.id)).Nodup)
    (hsrc : ∀ r ∈ s.catalog.chunks, r.chunk_location.1 = X →
       (s.disk.read r.chunk_location).isSome) :
    X.name ∈ inactiveNodes now hb ∧
    ¬ X.name ∈ ((monitorPass now hb s).1.map (fun p => p.1)) ∧
    (∀ r ∈ s.catalog.chunks, r.chunk_location.1 = X →
       ∃ r2 ∈ (monitorPass now hb s).2.catalog.chunks, r2.id = r.id ∧
         ¬ r2.chunk_location.1 = X ∧
         r2.chunk_location.2 = r.chunk_location.2) ∧
    (∀ r ∈ s.catalog.chunks, ¬ r.chunk_location.1 = X →
       r ∈ (monitorPass now hb s).2.catalog.chunks) := by
  have hin : inactiveNodes now hb = [X.name] :=
    inactiveNodes_single now X.name tX hb hmem hexp hothers hnd
  have hmp : monitorPass now hb s =
      (hb.filter (fun p => decide (¬ p.1 = X.name)), redistributeChunks X.name s) := by
    unfold monitorPass
    rw [hin]
    rfl
  have hsrc2 : ∀ r ∈ s.catalog.chunks, r.chunk_location.1.name = X.name →
      (s.disk.read r.chunk_location).isSome := by
    intro r hr hn
    exact hsrc r hr (node_name_inj _ _ hn)
  rcases redistributeChunks_spec X.name s hcid hsrc2 with ⟨hmoved, hkeep⟩
  refine ⟨by rw [hin]; exact List.mem_singleton.mpr rfl, ?_, ?_, ?_⟩
  · rw [hmp]
    intro h
    rcases List.mem_map.mp h with ⟨p, hp, heq⟩
    have := (List.mem_filter.mp hp).2
    rw [heq] at this
    simp at this
  · intro r hr hX
    rw [hmp]
    rcases hmoved r hr (by rw [hX]) with ⟨r2, hr2, hid, hnX, hbn⟩
    refine ⟨r2, hr2, hid, ?_, hbn⟩
    intro hc
    exact hnX (by rw [hc])
  · intro r hr hnX
    rw [hmp]
    apply hkeep r hr
    intro hc
    exact hnX (node_name_inj _ _ hc)

theorem version_monotonicity_witness :
    currentVersionOf (okState (uploadSeq idCrypto 0 initSys "f" [[0], [1]]) initSys) "f" =
      some ([[0], [1]] : List Bytes).length ∧
    ∃ fid, fileIdOf (okState (uploadSeq idCrypto 0 initSys "f" [[0], [1]]) initSys) "f" =
        some fid ∧
      ((okState (uploadSeq idCrypto 0 initSys "f" [[0], [1]]) initSys).catalog.versions.filter
        (fun v => decide (v.file_id = fid))).length = ([[0], [1]] : List Bytes).length :=
  version_monotonicity idCrypto 0 initSys "f" [[0], [1]]
    ⟨fun r hr => absurd hr (List.not_mem_nil r),
     fun r hr => absurd hr (List.not_mem_nil r),
     fun v hv => absurd hv (List.not_mem_nil v)⟩
    (fun r hr => absurd hr (List.not_mem_nil r)) (by decide) (by decide)

theorem heartbeat_failover_witness :
    Node.node1.name ∈ inactiveNodes 60 [("Node1", 0), ("Node2", 50), ("Node3", 55)] ∧
    ¬ Node.node1.name ∈ ((monitorPass 60 [("Node1", 0), ("Node2", 50), ("Node3", 55)]
        (okState (upload idCrypto 0 initSys "f" [0]) initSys)).1.map (fun p => p.1)) ∧
    (∀ r ∈ (okState (upload idCrypto 0 initSys "f" [0]) initSys).catalog.chunks,
       r.chunk_location.1 = Node.node1 →
       ∃ r2 ∈ (monitorPass 60 [("Node1", 0), ("Node2", 50), ("Node3", 55)]
           (okState (upload idCrypto 0 initSys "f" [0]) initSys)).2.catalog.chunks,
         r2.id = r.id ∧ ¬ r2.chunk_location.1 = Node.node1 ∧
         r2.chunk_location.2 = r.chunk_location.2) ∧
    (∀ r ∈ (okState (upload idCrypto 0 initSys "f" [0]) initSys).catalog.chunks,
       ¬ r.chunk_location.1 = Node.node1 →
       r ∈ (monitorPass 60 [("Node1", 0), ("Node2", 50), ("Node3", 55)]
           (okState (upload idCrypto 0 initSys "f" [0]) initSys)).2.catalog.chunks) :=
  heartbeat_failover 60 [("Node1", 0), ("Node2", 50), ("Node3", 55)]
    (okState (upload idCrypto 0 initSys "f" [0]) initSys) Node.node1 0
    (by decide) (by decide) (by decide) (by decide) (by decide) (by decide)

/-- C10: the download handler runs only SELECT statements, so it returns
the catalog exactly as it found it — in particular `last_accessed` and
`access_count` of every file are unchanged, and so is the hot-to-warm
demotion decision of the tier-migration loop, which reads exactly those
fields. -/
theorem download_leaves_catalog_unchanged (c : Crypto)
    (pick : List ChunkRow → Option ChunkRow) (s : Sys) (f : String)
    (v : Option Nat) :
    (download c pick s f v).2 = s.catalog ∧
    (download c pick s f v).2.metadata.map
        (fun r => (r.last_accessed, r.access_count)) =
      s.catalog.metadata.map (fun r => (r.last_accessed, r.access_count)) ∧
    ∀ nowd : Int,
      (download c pick s f v).2.metadata.map (shouldDemoteHotToWarm nowd) =
        s.catalog.metadata.map (shouldDemoteHotToWarm nowd) := by
  have h : (download c pick s f v).2 = s.catalog := by
    unfold download
    repeat' split
    all_goals first
      | rfl
      | (dsimp only; split <;> rfl)
  exact ⟨h, by rw [h], fun nowd => by rw [h]⟩

/-! ## C3: rollback reversibility -/

/-- Every node directory holds a replica of every chunk payload of an
upload — the disk state `replicate_chunk` (server.py:1137-1184) leaves
behind when replication to all other nodes succeeds. -/
def AllReplicated (c : Crypto) (s : Sys) (f : String) (data : Bytes) : Prop :=
  ∀ i ∈ List.range (uploadNumChunks data), ∀ n ∈ UPLOAD_FOLDERS,
    s.disk.read (n, (f, i)) = some (uploadPayload c data i)

instance instDecidableAllReplicated (c : Crypto) (s : Sys) (f : String)
    (data : Bytes) : Decidable (AllReplicated c s f data) :=
  inferInstanceAs (Decidable (∀ i ∈ List.range (uploadNumChunks data),
    ∀ n ∈ UPLOAD_FOLDERS, s.disk.read (n, (f, i)) = some (uploadPayload c data i)))

theorem mem_upload_folders (n : Node) : n ∈ UPLOAD_FOLDERS := by
  cases n <;> decide

theorem map_pointwise_id {α : Type} (l : List α) (g : α → α)
    (h : ∀ r ∈ l, g r = r) : l.map g = l :=
  (List.map_congr_left h).trans (List.map_id _)

/-- C3: after uploading a file twice (versions 1 and 2, all chunks of the
first upload replicated on every node), rolling back to version 1 succeeds,
sets `current_version = 1` and a download returns the version-1 bytes; then
rolling back to version 2 succeeds, sets `current_version = 2` and a
download returns the version-2 bytes.  The v2 upload overwrites one on-disk
copy of each shared chunk basename, but the download's fetch falls back to
a hash-verified scan of the other node directories, where a v1 copy
survives. -/
theorem rollback_reversible
    (c : Crypto) (hc : LawfulCrypto c)
    (pick : List ChunkRow → Option ChunkRow) (hp : GoodPick pick)
    (now1 now2 : Int) (s0 s1 s2 : Sys) (f : String) (b1 b2 : Bytes)
    (hw : WFSys s0) (hf : FreshFile s0 f)
    (hne1 : ¬ b1 = []) (hne2 : ¬ b2 = []) (hdiff : ¬ b1 = b2)
    (hu1 : upload c now1 s0 f b1 = Except.ok s1)
    (hu2 : upload c now2 s1 f b2 = Except.ok s2)
    (hrep : AllReplicated c s1 f b1) :
    ∃ s3 s4 : Sys,
      rollback s2 f 1 = Except.ok s3 ∧
      currentVersionOf s3 f = some 1 ∧
      (download c pick s3 f none).1 = Except.ok b1 ∧
      rollback s3 f 2 = Except.ok s4 ∧
      currentVersionOf s4 f = some 2 ∧
      (download c pick s4 f none).1 = Except.ok b2 := by
  -- unpack the first upload
  have hfind0 : findFileRow s0.catalog f = none := by
    unfold findFileRow
    rw [List.find?_eq_none]
    intro r hr
    simpa using hf r hr
  rcases upload_spec c now1 s0 f b1 s1 hw.meta_lt hu1 with
    ⟨-, -, ⟨rows1, hch1, hrp1, hrc1⟩, ⟨tc1, hv1⟩, hfreshm, -⟩
  rcases hfreshm hfind0 with ⟨R1, hm1, hR1id, hR1name, hR1cv, hnf1⟩
  have hfid1 : uploadFileId s0 f = s0.nextFileId := by
    unfold uploadFileId
    rw [hfind0]
  have hnv1 : uploadNewVersion s0 f = 1 := by
    unfold uploadNewVersion
    rw [hfind0]
  have hfind1 : findFileRow s1.catalog f = some R1 := by
    unfold findFileRow
    rw [hm1]
    exact find_fresh_append _ _ _ (fun r hr => hf r hr) hR1name
  have hw1meta : ∀ r ∈ s1.catalog.metadata, r.id < s1.nextFileId := by
    intro r hr
    rw [hm1] at hr
    rw [hnf1]
    rcases List.mem_append.mp hr with h | h
    · have := hw.meta_lt r h
      omega
    · rw [List.mem_singleton] at h
      subst h
      rw [hR1id]
      omega
  -- unpack the second upload
  rcases upload_spec c now2 s1 f b2 s2 hw1meta hu2 with
    ⟨hBframe, hBover, ⟨rows2, hch2, hrp2, hrc2⟩, ⟨tc2, hv2⟩, -, hold2⟩
  have hfid2 : uploadFileId s1 f = s0.nextFileId := by
    unfold uploadFileId
    simp only [hfind1]
    exact hR1id
  have hnv2 : uploadNewVersion s1 f = 2 := by
    unfold uploadNewVersion
    simp only [hfind1]
    rw [hR1cv]
  rcases hold2 R1 hfind1 with ⟨loc0, reps, tcm, hm2, hnf2⟩
  obtain ⟨R2, hR2def⟩ : ∃ R2 : FileRow, R2 =
      { R1 with current_version := R1.current_version + 1, size := b2.length,
                compressed_size := tcm, upload_timestamp := now2,
                location := loc0, replicas := reps } := ⟨_, rfl⟩
  have hR2id : R2.id = s0.nextFileId := by
    rw [hR2def]
    exact hR1id
  have hR2name : R2.filename = f := by
    rw [hR2def]
    exact hR1name
  have hR2cv : R2.current_version = 2 := by
    rw [hR2def]
    show R1.current_version + 1 = 2
    rw [hR1cv]
  obtain ⟨R3, hR3def⟩ : ∃ R3 : FileRow, R3 = { R2 with current_version := 1 } :=
    ⟨_, rfl⟩
  have hR3id : R3.id = s0.nextFileId := by
    rw [hR3def]
    exact hR2id
  have hR3name : R3.filename = f := by
    rw [hR3def]
    exact hR2name
  have hR3cv : R3.current_version = 1 := by
    rw [hR3def]
  obtain ⟨R4, hR4def⟩ : ∃ R4 : FileRow, R4 = { R3 with current_version := 2 } :=
    ⟨_, rfl⟩
  have hR4id : R4.id = s0.nextFileId := by
    rw [hR4def]
    exact hR3id
  have hR4name : R4.filename = f := by
    rw [hR4def]
    exact hR3name
  have hR4cv : R4.current_version = 2 := by
    rw [hR4def]
  -- the catalog after the second upload
  have hmeta2 : s2.catalog.metadata = s0.catalog.metadata ++ [R2] := by
    rw [hm2, hm1, List.map_append]
    congr 1
    · apply map_pointwise_id
      intro r hr
      have hlt := hw.meta_lt r hr
      have hne : ¬ r.id = R1.id := by
        intro hcc
        rw [hcc, hR1id] at hlt
        omega
      simp only [if_neg hne]
    · rw [List.map_cons, List.map_nil, if_pos rfl, hR2def]
  have hfind2 : findFileRow s2.catalog f = some R2 := by
    unfold findFileRow
    rw [hmeta2]
    exact find_fresh_append _ _ _ (fun r hr => hf r hr) hR2name
  have hchunksdec : s2.catalog.chunks = s0.catalog.chunks ++ rows1 ++ rows2 := by
    rw [hch2, hch1]
  -- the two version rows
  have hE1mem : (⟨uploadFileId s0 f, uploadNewVersion s0 f, b1.length, tc1,
      c.hash b1⟩ : VersionRow) ∈ s2.catalog.versions := by
    rw [hv2, hv1]
    exact List.mem_append_left _ (List.mem_append_right _ (List.mem_singleton_self _))
  have hE2mem : (⟨uploadFileId s1 f, uploadNewVersion s1 f, b2.length, tc2,
      c.hash b2⟩ : VersionRow) ∈ s2.catalog.versions := by
    rw [hv2]
    exact List.mem_append_right _ (List.mem_singleton_self _)
  have hvex1 : versionExists s2.catalog R2.id 1 = true := by
    unfold versionExists
    apply List.any_eq_true.mpr
    refine ⟨⟨uploadFileId s0 f, uploadNewVersion s0 f, b1.length, tc1, c.hash b1⟩,
      hE1mem, ?_⟩
    apply decide_eq_true
    constructor
    · show uploadFileId s0 f = R2.id
      rw [hfid1]
      exact hR2id.symm
    · exact hnv1
  have hne12 : ¬ ((1 : Nat) = R2.current_version) := by
    rw [hR2cv]
    omega
  -- the first rollback, computed
  obtain ⟨s3, hroll1, hdisk3, hvers3, hmeta3raw, hchunks3raw⟩ :
      ∃ s3 : Sys, rollback s2 f 1 = Except.ok s3 ∧
        s3.disk = s2.disk ∧
        s3.catalog.versions = s2.catalog.versions ∧
        s3.catalog.metadata = s2.catalog.metadata.map (fun r =>
          if r.id = R2.id then { r with current_version := 1 } else r) ∧
        s3.catalog.chunks = (s2.catalog.chunks.map (fun r =>
          if r.file_id = R2.id ∧ r.version_number = R2.current_version ∧
             r.status = ChunkStatus.active
          then { r with status := ChunkStatus.deprecated } else r)).map (fun r =>
          if r.file_id = R2.id ∧ r.version_number = 1 ∧
             r.status = ChunkStatus.deprecated
          then { r with status := ChunkStatus.active } else r) := by
    refine ⟨{ s2 with catalog := { s2.catalog with
        metadata := s2.catalog.metadata.map (fun r =>
          if r.id = R2.id then { r with current_version := 1 } else r),
        chunks := (s2.catalog.chunks.map (fun r =>
          if r.file_id = R2.id ∧ r.version_number = R2.current_version ∧
             r.status = ChunkStatus.active
          then { r with status := ChunkStatus.deprecated } else r)).map (fun r =>
          if r.file_id = R2.id ∧ r.version_number = 1 ∧
             r.status = ChunkStatus.deprecated
          then { r with status := ChunkStatus.active } else r) } },
      ?_, rfl, rfl, rfl, rfl⟩
    unfold rollback
    rw [hfind2]
    simp only
    rw [if_pos hvex1, if_neg hne12]
  have hchunks3 : s3.catalog.chunks =
      s0.catalog.chunks ++ rows1 ++ rows2.map (fun r =>
        { r with status := ChunkStatus.deprecated }) := by
    rw [hchunks3raw, hchunksdec]
    simp only [List.map_append, List.map_map]
    congr 1
    · congr 1
      · apply map_pointwise_id
        intro r hr
        have hlt := hw.chunks_lt r hr
        have hne : ¬ r.file_id = R2.id := by
          intro hcc
          rw [hcc, hR2id] at hlt
          omega
        have h1 : ¬ (r.file_id = R2.id ∧ r.version_number = R2.current_version ∧
            r.status = ChunkStatus.active) := fun hcc => hne hcc.1
        have h2 : ¬ (r.file_id = R2.id ∧ r.version_number = 1 ∧
            r.status = ChunkStatus.deprecated) := fun hcc => hne hcc.1
        simp only [Function.comp_apply, if_neg h1, if_neg h2]
      · apply map_pointwise_id
        intro r hr
        rcases hrp1 r hr with ⟨hfidr, hverr, hstr, -, -, -, -⟩
        have hver1 : r.version_number = 1 := by rw [hverr, hnv1]
        have h1 : ¬ (r.file_id = R2.id ∧ r.version_number = R2.current_version ∧
            r.status = ChunkStatus.active) := by
          intro hcc
          have hv := hcc.2.1
          rw [hver1, hR2cv] at hv
          exact absurd hv (by decide)
        have h2 : ¬ (r.file_id = R2.id ∧ r.version_number = 1 ∧
            r.status = ChunkStatus.deprecated) := by
          intro hcc
          have hv := hcc.2.2
          rw [hstr] at hv
          exact absurd hv (by decide)
        simp only [Function.comp_apply, if_neg h1, if_neg h2]
    · apply List.map_congr_left
      intro r hr
      rcases hrp2 r hr with ⟨hfidr, hverr, hstr, -, -, -, -⟩
      have hver2 : r.version_number = 2 := by rw [hverr, hnv2]
      have hfidn : r.file_id = R2.id := by
        rw [hfidr, hfid2]
        exact hR2id.symm
      have h1 : r.file_id = R2.id ∧ r.version_number = R2.current_version ∧
          r.status = ChunkStatus.active := ⟨hfidn, by rw [hver2, hR2cv], hstr⟩
      have h2 : ¬ (({ r with status := ChunkStatus.deprecated } : ChunkRow).file_id
            = R2.id ∧
          ({ r with status := ChunkStatus.deprecated } : ChunkRow).version_number
            = 1 ∧
          ({ r with status := ChunkStatus.deprecated } : ChunkRow).status
            = ChunkStatus.deprecated) := by
        intro hcc
        have hv : r.version_number = 1 := hcc.2.1
        rw [hver2] at hv
        exact absurd hv (by decide)
      simp only [Function.comp_apply, if_pos h1]
      simp [hver2]
  have hmeta3 : s3.catalog.metadata = s0.catalog.metadata ++ [R3] := by
    rw [hmeta3raw, hmeta2, List.map_append]
    congr 1
    · apply map_pointwise_id
      intro r hr
      have hlt := hw.meta_lt r hr
      have hne : ¬ r.id = R2.id := by
        intro hcc
        rw [hcc, hR2id] at hlt
        omega
      simp only [if_neg hne]
    · rw [List.map_cons, List.map_nil, if_pos rfl, hR3def]
  have hfind3 : findFileRow s3.catalog f = some R3 := by
    unfold findFileRow
    rw [hmeta3]
    exact find_fresh_append _ _ _ (fun r hr => hf r hr) hR3name
  have hcv3 : currentVersionOf s3 f = some 1 := by
    unfold currentVersionOf
    rw [hfind3]
    simp [hR3cv]
  -- the first download returns the v1 bytes
  have hN1pos : 0 < uploadNumChunks b1 := by
    unfold uploadNumChunks
    cases hcc : chunksOf CHUNK_SIZE b1 with
    | nil => exact absurd hcc (chunksOf_ne_nil CHUNK_SIZE b1 hne1)
    | cons a l => simp
  have hN2pos : 0 < uploadNumChunks b2 := by
    unfold uploadNumChunks
    cases hcc : chunksOf CHUNK_SIZE b2 with
    | nil => exact absurd hcc (chunksOf_ne_nil CHUNK_SIZE b2 hne2)
    | cons a l => simp
  have hdl3 : (download c pick s3 f none).1 = Except.ok b1 := by
    have hdl := download_ok c hc pick hp s3 f R3 (uploadPayload c b1)
      (uploadNumChunks b1) hfind3 hN1pos
      (by
        intro r hr hfidh hverh hsth
        rw [hchunks3] at hr
        rcases List.mem_append.mp hr with hr | hr
        · rcases List.mem_append.mp hr with hr | hr
          · exfalso
            have hlt := hw.chunks_lt r hr
            rw [hfidh, hR3id] at hlt
            omega
          · have hpr := hrp1 r hr
            exact ⟨hpr.2.2.2.1, hpr.2.2.2.2.1, hpr.2.2.2.2.2.2⟩
        · exfalso
          rcases List.mem_map.mp hr with ⟨r0, hr0, heq⟩
          subst heq
          have hv : ChunkStatus.deprecated = ChunkStatus.active := hsth
          exact absurd hv (by decide))
      (by
        intro i hi
        rcases hrc1 i hi with ⟨r, hr, hri⟩
        have hpr := hrp1 r hr
        refine ⟨r, ?_, ?_, ?_, hpr.2.2.1, hri⟩
        · rw [hchunks3]
          exact List.mem_append_left _ (List.mem_append_right _ hr)
        · rw [hpr.1, hfid1]
          exact hR3id.symm
        · rw [hpr.2.1, hnv1]
          exact hR3cv.symm)
      (by
        intro i hi
        have hrepi : ∀ n : Node, s1.disk.read (n, (f, i)) =
            some (uploadPayload c b1 i) :=
          fun n => hrep i (List.mem_range.mpr hi) n (mem_upload_folders n)
        by_cases hiN2 : i < uploadNumChunks b2
        · rcases hBover i hiN2 with ⟨nw, hnw⟩
          by_cases hnw1 : nw = Node.node1
          · refine ⟨Node.node2, ?_⟩
            rw [hdisk3]
            rw [hnw Node.node2 (by rw [hnw1]; decide)
              (by rw [hrepi Node.node2]; rfl)]
            exact hrepi Node.node2
          · refine ⟨Node.node1, ?_⟩
            rw [hdisk3]
            rw [hnw Node.node1 (fun hcc => hnw1 hcc.symm)
              (by rw [hrepi Node.node1]; rfl)]
            exact hrepi Node.node1
        · refine ⟨Node.node1, ?_⟩
          have hfr : s2.disk.read (Node.node1, (f, i)) =
              s1.disk.read (Node.node1, (f, i)) := by
            apply hBframe
            intro k hk hcc
            injection hcc with hc1 hc2
            omega
          rw [hdisk3, hfr]
          exact hrepi Node.node1)
    rw [hdl, decode_payloads_eq c hc b1]
  -- the second rollback, computed
  have hvex2 : versionExists s3.catalog R3.id 2 = true := by
    unfold versionExists
    rw [hvers3]
    apply List.any_eq_true.mpr
    refine ⟨⟨uploadFileId s1 f, uploadNewVersion s1 f, b2.length, tc2, c.hash b2⟩,
      hE2mem, ?_⟩
    apply decide_eq_true
    constructor
    · show uploadFileId s1 f = R3.id
      rw [hfid2]
      exact hR3id.symm
    · exact hnv2
  have hne23 : ¬ ((2 : Nat) = R3.current_version) := by
    rw [hR3cv]
    omega
  obtain ⟨s4, hroll2, hdisk4, hvers4, hmeta4raw, hchunks4raw⟩ :
      ∃ s4 : Sys, rollback s3 f 2 = Except.ok s4 ∧
        s4.disk = s3.disk ∧
        s4.catalog.versions = s3.catalog.versions ∧
        s4.catalog.metadata = s3.catalog.metadata.map (fun r =>
          if r.id = R3.id then { r with current_version := 2 } else r) ∧
        s4.catalog.chunks = (s3.catalog.chunks.map (fun r =>
          if r.file_id = R3.id ∧ r.version_number = R3.current_version ∧
             r.status = ChunkStatus.active
          then { r with status := ChunkStatus.deprecated } else r)).map (fun r =>
          if r.file_id = R3.id ∧ r.version_number = 2 ∧
             r.status = ChunkStatus.deprecated
          then { r with status := ChunkStatus.active } else r) := by
    refine ⟨{ s3 with catalog := { s3.catalog with
        metadata := s3.catalog.metadata.map (fun r =>
          if r.id = R3.id then { r with current_version := 2 } else r),
        chunks := (s3.catalog.chunks.map (fun r =>
          if r.file_id = R3.id ∧ r.version_number = R3.current_version ∧
             r.status = ChunkStatus.active
          then { r with status := ChunkStatus.deprecated } else r)).map (fun r =>
          if r.file_id = R3.id ∧ r.version_number = 2 ∧
             r.status = ChunkStatus.deprecated
          then { r with status := ChunkStatus.active } else r) } },
      ?_, rfl, rfl, rfl, rfl⟩
    unfold rollback
    rw [hfind3]
    simp only
    rw [if_pos hvex2, if_neg hne23]
  have hchunks4 : s4.catalog.chunks =
      s0.catalog.chunks ++
        rows1.map (fun r => { r with status := ChunkStatus.deprecated }) ++
        rows2.map (fun r => { r with status := ChunkStatus.active }) := by
    rw [hchunks4raw, hchunks3]
    simp only [List.map_append, List.map_map]
    congr 1
    · congr 1
      · apply map_pointwise_id
        intro r hr
        have hlt := hw.chunks_lt r hr
        have hne : ¬ r.file_id = R3.id := by
          intro hcc
          rw [hcc, hR3id] at hlt
          omega
        have h1 : ¬ (r.file_id = R3.id ∧ r.version_number = R3.current_version ∧
            r.status = ChunkStatus.active) := fun hcc => hne hcc.1
        have h2 : ¬ (r.file_id = R3.id ∧ r.version_number = 2 ∧
            r.status = ChunkStatus.deprecated) := fun hcc => hne hcc.1
        simp only [Function.comp_apply, if_neg h1, if_neg h2]
      · apply List.map_congr_left
        intro r hr
        rcases hrp1 r hr with ⟨hfidr, hverr, hstr, -, -, -, -⟩
        have hver1 : r.version_number = 1 := by rw [hverr, hnv1]
        have hfidn : r.file_id = R3.id := by
          rw [hfidr, hfid1]
          exact hR3id.symm
        have h1 : r.file_id = R3.id ∧ r.version_number = R3.current_version ∧
            r.status = ChunkStatus.active :=
          ⟨hfidn, by rw [hver1]; exact hR3cv.symm, hstr⟩
        have h2 : ¬ (({ r with status := ChunkStatus.deprecated } : ChunkRow).file_id
              = R3.id ∧
            ({ r with status := ChunkStatus.deprecated } : ChunkRow).version_number
              = 2 ∧
            ({ r with status := ChunkStatus.deprecated } : ChunkRow).status
              = ChunkStatus.deprecated) := by
          intro hcc
          have hv : r.version_number = 2 := hcc.2.1
          rw [hver1] at hv
          exact absurd hv (by decide)
        simp only [Function.comp_apply, if_pos h1]
        simp [hver1]
    · apply List.map_congr_left
      intro r hr
      rcases hrp2 r hr with ⟨hfidr, hverr, hstr, -, -, -, -⟩
      have hver2 : r.version_number = 2 := by rw [hverr, hnv2]
      have hfidn : r.file_id = R3.id := by
        rw [hfidr, hfid2]
        exact hR3id.symm
      have h1 : ¬ (({ r with status := ChunkStatus.deprecated } : ChunkRow).file_id
            = R3.id ∧
          ({ r with status := ChunkStatus.deprecated } : ChunkRow).version_number
            = R3.current_version ∧
          ({ r with status := ChunkStatus.deprecated } : ChunkRow).status
            = ChunkStatus.active) := by
        intro hcc
        have hv : ChunkStatus.deprecated = ChunkStatus.active := hcc.2.2
        exact absurd hv (by decide)
      have h2 : ({ r with status := ChunkStatus.deprecated } : ChunkRow).file_id
            = R3.id ∧
          ({ r with status := ChunkStatus.deprecated } : ChunkRow).version_number
            = 2 ∧
          ({ r with status := ChunkStatus.deprecated } : ChunkRow).status
            = ChunkStatus.deprecated := ⟨hfidn, hver2, rfl⟩
      simp only [Function.comp_apply, if_neg h1]
      simp [hfidn, hver2]
  have hmeta4 : s4.catalog.metadata = s0.catalog.metadata ++ [R4] := by
    rw [hmeta4raw, hmeta3, List.map_append]
    congr 1
    · apply map_pointwise_id
      intro r hr
      have hlt := hw.meta_lt r hr
      have hne : ¬ r.id = R3.id := by
        intro hcc
        rw [hcc, hR3id] at hlt
        omega
      simp only [if_neg hne]
    · rw [List.map_cons, List.map_nil, if_pos rfl, hR4def]
  have hfind4 : findFileRow s4.catalog f = some R4 := by
    unfold findFileRow
    rw [hmeta4]
    exact find_fresh_append _ _ _ (fun r hr => hf r hr) hR4name
  have hcv4 : currentVersionOf s4 f = some 2 := by
    unfold currentVersionOf
    rw [hfind4]
    simp [hR4cv]
  -- the second download returns the v2 bytes
  have hdl4 : (download c pick s4 f none).1 = Except.ok b2 := by
    have hdl := download_ok c hc pick hp s4 f R4 (uploadPayload c b2)
      (uploadNumChunks b2) hfind4 hN2pos
      (by
        intro r hr hfidh hverh hsth
        rw [hchunks4] at hr
        rcases List.mem_append.mp hr with hr | hr
        · rcases List.mem_append.mp hr with hr | hr
          · exfalso
            have hlt := hw.chunks_lt r hr
            rw [hfidh, hR4id] at hlt
            omega
          · exfalso
            rcases List.mem_map.mp hr with ⟨r0, hr0, heq⟩
            subst heq
            have hv : ChunkStatus.deprecated = ChunkStatus.active := hsth
            exact absurd hv (by decide)
        · rcases List.mem_map.mp hr with ⟨r0, hr0, heq⟩
          subst heq
          have hpr := hrp2 r0 hr0
          exact ⟨hpr.2.2.2.1, hpr.2.2.2.2.1, hpr.2.2.2.2.2.2⟩)
      (by
        intro i hi
        rcases hrc2 i hi with ⟨r, hr, hri⟩
        have hpr := hrp2 r hr
        refine ⟨{ r with status := ChunkStatus.active }, ?_, ?_, ?_, rfl, hri⟩
        · rw [hchunks4]
          exact List.mem_append_right _
            (List.mem_map_of_mem (fun r => { r with status := ChunkStatus.active }) hr)
        · show r.file_id = R4.id
          rw [hpr.1, hfid2]
          exact hR4id.symm
        · show r.version_number = R4.current_version
          rw [hpr.2.1, hnv2]
          exact hR4cv.symm)
      (by
        intro i hi
        rcases hrc2 i hi with ⟨r, hr, hri⟩
        have hpr := hrp2 r hr
        refine ⟨r.chunk_location.1, ?_⟩
        have hloc : (r.chunk_location.1, (f, i)) = r.chunk_location := by
          have h2 := hpr.2.2.2.1
          rw [← hri, ← h2]
        rw [hdisk4, hdisk3, hloc]
        rw [hpr.2.2.2.2.2.1, hri])
    rw [hdl, decode_payloads_eq c hc b2]
  exact ⟨s3, s4, hroll1, hcv3, hdl3, hroll2, hcv4, hdl4⟩

theorem rollback_reversible_witness :
    ∃ s3 s4 : Sys,
      rollback (okState (upload idCrypto 0
          (okState (upload idCrypto 0 initSys "f" [0]) initSys) "f" [1]) initSys)
        "f" 1 = Except.ok s3 ∧
      currentVersionOf s3 "f" = some 1 ∧
      (download idCrypto pickHead s3 "f" none).1 = Except.ok [0] ∧
      rollback s3 "f" 2 = Except.ok s4 ∧
      currentVersionOf s4 "f" = some 2 ∧
      (download idCrypto pickHead s4 "f" none).1 = Except.ok [1] :=
  rollback_reversible idCrypto idCrypto_lawful pickHead pickHead_good 0 0
    initSys (okState (upload idCrypto 0 initSys "f" [0]) initSys)
    (okState (upload idCrypto 0
      (okState (upload idCrypto 0 initSys "f" [0]) initSys) "f" [1]) initSys)
    "f" [0] [1]
    ⟨fun r hr => absurd hr (List.not_mem_nil r),
     fun r hr => absurd hr (List.not_mem_nil r),
     fun v hv => absurd hv (List.not_mem_nil v)⟩
    (fun r hr => absurd hr (List.not_mem_nil r))
    (by decide) (by decide) (by decide)
    (by decide) (by decide) (by decide)
